import Mathlib

/-!
# A verification development for the package indexer

The development embeds the registry of `indexer.go`, the line decoder of
`parser.go` and the request loop of `cmd/server/tcpserver.go` as executable
Lean definitions and proves properties of them.

Modelling conventions.

* A Go `map[string]*Pkg` is an association list `List (String × Pkg)`.  A map
  never holds one key twice, which is the predicate `WF`; every operation of the
  registry keeps it (`Index_WF`, `Remove_WF`).  The order of the list stands for
  the unspecified order in which Go ranges over a map.
* A `*Pkg` is the package value it points to: the registry never writes through
  the pointer, and callers that keep mutating a package after handing it over are
  outside the model, as are nil pointers.
* The mutex is left out: every call is one atomic step on the state.
* A method returns its result together with the state after the call.
* The error channel of the server has no buffer.  Its state says what a send
  on it does: it completes when a goroutine receives, it waits for ever when
  none does, it panics when the channel is closed.  A call on the server
  therefore returns, blocks or panics (`Run`).
-/

namespace Indexer

/-! ## Constants of `indexer.go` -/

/-- Status returned when the requested operation succeeded. -/
def OK : String := "OK\n"

/-- Status returned when a dependency constraint forbids the operation. -/
def Fail : String := "FAIL\n"

/-- Status returned for an unknown command or a malformed message. -/
def Error : String := "ERROR\n"

/-! ## `pkg.go` -/

/-- A package with the names of the packages it depends on. -/
structure Pkg where
  Name : String
  Deps : List String
deriving DecidableEq, Repr

/-! ## The Go map primitives used by the registry -/

/-- The contents of a `map[string]*Pkg`. -/
abbrev Registry := List (String × Pkg)

/-- The keys of the map, in scan order. -/
def keys (r : Registry) : List String := r.map Prod.fst

/-- A map holds every key at most once. -/
def WF (r : Registry) : Prop := (keys r).Nodup

instance instDecidableWF (r : Registry) : Decidable (WF r) := by
  unfold WF; infer_instance

/-- The lookup `v, ok := m[k]`: `some v` when `ok`. -/
def mapGet : Registry → String → Option Pkg
  | [], _ => none
  | (k', v) :: rest, k => if k' = k then some v else mapGet rest k

/-- The test `_, exist := m[k]`. -/
def mapExist (r : Registry) (k : String) : Bool := (mapGet r k).isSome

/-- The builtin `delete(m, k)`. -/
def mapDelete (r : Registry) (k : String) : Registry :=
  r.filter (fun e => decide (e.1 ≠ k))

/-- The assignment `m[k] = v`. -/
def mapSet (r : Registry) (k : String) (v : Pkg) : Registry :=
  (k, v) :: mapDelete r k

/-! ## `indexer.go` -/

/-- The in-memory registry (the mutex is not modelled). -/
structure InMemoryIndexer where
  registry : Registry
deriving DecidableEq, Repr

/-- A new indexer with an empty registry. -/
def NewInMemoryIndexer : InMemoryIndexer := { registry := [] }

/-- The loop of `canIndex`: the first dependency that is not registered
makes it return `false`. -/
def canIndexLoop (r : Registry) : List String → Bool
  | [] => true
  | d :: ds => if mapExist r d then canIndexLoop r ds else false

/-- Whether every dependency of `p` is registered. -/
def canIndex (i : InMemoryIndexer) (p : Pkg) : Bool :=
  canIndexLoop i.registry p.Deps

/-- The inner loop of `canRemove` over one dependency list: a dependency equal
to `name` sets `ok` to `false` and breaks out of this loop only. -/
def canRemoveInner (name : String) : List String → Bool → Bool
  | [], ok => ok
  | dep :: deps, ok => if dep = name then false else canRemoveInner name deps ok

/-- The outer loop of `canRemove` over the packages of the registry, threading
the variable `ok`. -/
def canRemoveLoop (name : String) : Registry → Bool → Bool
  | [], ok => ok
  | e :: rest, ok => canRemoveLoop name rest (canRemoveInner name e.2.Deps ok)

/-- Whether no package of the registry lists `name`. -/
def canRemove (i : InMemoryIndexer) (name : String) : Bool :=
  canRemoveLoop name i.registry true

/-- The method `Index`: the status and the indexer after the call. -/
def Index (i : InMemoryIndexer) (p : Pkg) : String × InMemoryIndexer :=
  if mapExist i.registry p.Name then (OK, i)
  else if !canIndex i p then (Fail, i)
  else (OK, { registry := mapSet i.registry p.Name p })

/-- The method `Remove`: the status and the indexer after the call. -/
def Remove (i : InMemoryIndexer) (name : String) : String × InMemoryIndexer :=
  if !mapExist i.registry name then (OK, i)
  else if !canRemove i name then (Fail, i)
  else (OK, { registry := mapDelete i.registry name })

/-- The method `Query`: the status and the indexer, which it only reads. -/
def Query (i : InMemoryIndexer) (name : String) : String × InMemoryIndexer :=
  if mapExist i.registry name then (OK, i) else (Fail, i)

/-- The method `count`. -/
def count (i : InMemoryIndexer) : Nat := i.registry.length

/-- One call of the `Indexer` interface. -/
inductive Call where
  | index (p : Pkg)
  | remove (name : String)
  | query (name : String)
deriving DecidableEq, Repr

/-- Performs one call: the status and the indexer after it. -/
def perform (i : InMemoryIndexer) : Call → String × InMemoryIndexer
  | .index p => Index i p
  | .remove name => Remove i name
  | .query name => Query i name

/-- Performs a sequence of calls one after the other, keeping the state. -/
def performAll (i : InMemoryIndexer) : List Call → InMemoryIndexer
  | [] => i
  | c :: cs => performAll (perform i c).2 cs

/-! ## The Go library functions used by `parser.go`

A Go string is modelled by a Lean `String`, that is by a sequence of Unicode
characters: the inputs are the valid UTF-8 strings.  The separators of the
protocol are one-character strings and are modelled by that character. -/

namespace unicode

/-- The function `unicode.IsSpace`: the white space of Latin-1, and beyond it
the characters with the Unicode property White_Space. -/
def IsSpace (c : Char) : Bool :=
  let n := c.toNat
  n = 0x09 || n = 0x0A || n = 0x0B || n = 0x0C || n = 0x0D || n = 0x20
    || n = 0x85 || n = 0xA0 || n = 0x1680 || (0x2000 ≤ n && n ≤ 0x200A)
    || n = 0x2028 || n = 0x2029 || n = 0x202F || n = 0x205F || n = 0x3000

end unicode

namespace strings

/-- The function `strings.HasSuffix`. -/
def HasSuffix (s suffix : String) : Bool := suffix.data.isSuffixOf s.data

/-- The function `strings.Count` for a one-character separator. -/
def Count (s : String) (sep : Char) : Nat := s.data.count sep

/-- The function `strings.TrimSpace`: `s` without its leading and trailing
white space. -/
def TrimSpace (s : String) : String :=
  ⟨((s.data.dropWhile unicode.IsSpace).reverse.dropWhile unicode.IsSpace).reverse⟩

/-- The function `strings.Split` for a one-character separator: the pieces of
`s` between the separators, one more than there are separators. -/
def Split (s : String) (sep : Char) : List String :=
  (s.data.splitOn sep).map String.mk

end strings

/-! ## `parser.go` -/

/-- The terminator of a message. -/
def msgSuffix : String := "\n"

/-- The separator of the fields of a message. -/
def msgDelimiter : Char := '|'

/-- The least number of field separators of a message. -/
def msgDelimitersCount : Nat := 2

/-- The separator of the dependency names. -/
def depsDelimiter : Char := ','

/-- The number of fields of a message that lists dependencies. -/
def splitsMax : Nat := 3

/-- The error message for a malformed message structure. -/
def ErrMalformedMsg : String := "Malformed message structure"

/-- The error message for a missing command. -/
def ErrMissingCmd : String := "Missing command"

/-- The error message for a missing package name. -/
def ErrMissingName : String := "Missing package name"

/-- How a Go function that returns a value and an error ends. -/
inductive Outcome (α : Type) where
  /-- It returns the value and a nil error. -/
  | value (a : α)
  /-- It returns the error with this message. -/
  | error (msg : String)
  /-- It panics on an index out of range. -/
  | indexOutOfRange
deriving DecidableEq, Repr

/-- The three results `(p, cmd, e)` of `ParseMsg`; `none` is nil. -/
structure Parsed where
  p : Option Pkg
  cmd : String
  e : Option String
deriving DecidableEq, Repr

/-- Whether `s` ends with the terminator and has enough separators. -/
def isWellStructured (s : String) : Bool :=
  if !strings.HasSuffix s msgSuffix then false
  else if strings.Count s msgDelimiter < msgDelimitersCount then false
  else true

/-- The fields of `s`, or the error of an empty first or second field. -/
def extractFields (s : String) : Outcome (List String) :=
  let splits := strings.Split (strings.TrimSpace s) msgDelimiter
  match splits[0]? with
  | none => .indexOutOfRange
  | some f0 =>
    if f0 = "" then .error ErrMissingCmd
    else
      match splits[1]? with
      | none => .indexOutOfRange
      | some f1 => if f1 = "" then .error ErrMissingName else .value splits

/-- The dependency names of the third field; `none` is the panic of an index
out of range.  A nil slice is the empty list. -/
def extractDeps (splits : List String) : Option (List String) :=
  if splits.length = splitsMax then
    match splits[splitsMax - 1]? with
    | none => none
    | some f => if f ≠ "" then some (strings.Split f depsDelimiter) else some []
  else some []

/-- The function `ParseMsg`; `none` is the panic of an index out of range. -/
def ParseMsg (s : String) : Option Parsed :=
  if !isWellStructured s then some ⟨none, "", some ErrMalformedMsg⟩
  else
    match extractFields s with
    | .indexOutOfRange => none
    | .error msg => some ⟨none, "", some msg⟩
    | .value splits =>
      match splits[0]?, splits[1]?, extractDeps splits with
      | some cmd, some name, some deps => some ⟨some ⟨name, deps⟩, cmd, none⟩
      | _, _, _ => none

/-- A token of a request line: a non-empty string without white space, field
separator or dependency separator. -/
def isToken (t : String) : Bool :=
  !t.data.isEmpty &&
    t.data.all (fun ch => !unicode.IsSpace ch && ch != msgDelimiter && ch != depsDelimiter)

/-! ## `cmd/server/tcpserver.go` -/

/-- What a send on the error channel `s.err` does.  The channel is made
without a buffer, so a send waits for a goroutine to receive the value. -/
inductive ChanStatus where
  /-- A goroutine receives from the channel, as `catchSignals` does while it
  runs: a send completes. -/
  | receiving
  /-- No goroutine receives from the channel, now or later: a send never
  completes. -/
  | idle
  /-- The channel was closed, as `Close` does on a server without a listener: a
  send panics. -/
  | closed
deriving DecidableEq, Repr

/-- The error channel: what it does with a send, and the errors received from
it so far, oldest first. -/
structure ErrChan where
  status : ChanStatus
  received : List String
deriving DecidableEq, Repr

/-- The server: its registry and its error channel.  The listener, the signal
channel and the logger are not modelled. -/
structure TCPServer where
  i : InMemoryIndexer
  err : ErrChan
deriving DecidableEq, Repr

/-- How a call on the server ends. -/
inductive Run (α : Type) where
  /-- It returns this value. -/
  | returns (a : α)
  /-- It never returns: it waits on a send that nothing receives. -/
  | blocks
  /-- It panics. -/
  | panics
deriving DecidableEq, Repr

/-- The send `s.err <- err` and what follows it: with a receiver the error is
handed over and the call goes on to return `after`; without one the call
waits for ever; on a closed channel it panics. -/
def sendErr (s : TCPServer) (e : String) (after : TCPServer → Run (String × TCPServer)) :
    Run (String × TCPServer) :=
  match s.err.status with
  | .receiving => after { s with err := { s.err with received := s.err.received ++ [e] } }
  | .idle => .blocks
  | .closed => .panics

/-- The return of a registry method from `process`: its status is the response
and its registry becomes the registry of the server. -/
def reply (s : TCPServer) (r : String × InMemoryIndexer) : Run (String × TCPServer) :=
  .returns (r.1, { s with i := r.2 })

/-- The method `process`: the response line and the server afterwards.  On a
parse error it sends the error on the error channel and then returns `Error`.
A panic of `ParseMsg` is a panic of `process`, and so is the use of a nil
package by one of the three commands. -/
def process (s : TCPServer) (line : String) : Run (String × TCPServer) :=
  match ParseMsg line with
  | none => .panics
  | some ⟨_, _, some e⟩ => sendErr s e (fun t => .returns (Error, t))
  | some ⟨none, cmd, none⟩ =>
    if cmd = "INDEX" then .panics
    else if cmd = "REMOVE" then .panics
    else if cmd = "QUERY" then .panics
    else .returns (Error, s)
  | some ⟨some pkg, cmd, none⟩ =>
    if cmd = "INDEX" then reply s (Index s.i pkg)
    else if cmd = "REMOVE" then reply s (Remove s.i pkg.Name)
    else if cmd = "QUERY" then reply s (Query s.i pkg.Name)
    else .returns (Error, s)

/-- The lines given to `process` one after the other on the same server: when
every call returns, the responses in order and the server at the end; a call
that blocks or panics ends the sequence so. -/
def processAll (s : TCPServer) : List String → Run (List String × TCPServer)
  | [] => .returns ([], s)
  | line :: lines =>
    match process s line with
    | .panics => .panics
    | .blocks => .blocks
    | .returns (res, t) =>
      match processAll t lines with
      | .panics => .panics
      | .blocks => .blocks
      | .returns (out, u) => .returns (res :: out, u)

/-- What a connection delivers to the server: the groups of bytes returned by
the successive calls of `conn.Read`, and then the end of the stream. -/
abbrev Conn := List String

/-- The call `ReadString('\n')` on a new `bufio.Reader`: it reads from the
connection until what it has buffered holds a newline and returns the text up
to and with the first newline.  What it buffered after that newline stays in
the reader.  `none` is the error `io.EOF` of a stream that ends first. -/
def readString (acc : List Char) : Conn → Option String × Conn
  | [] => (none, [])
  | chunk :: rest =>
    if '\n' ∈ chunk.data then
      (some ⟨acc ++ chunk.data.takeWhile (fun ch => ch != '\n') ++ ['\n']⟩, rest)
    else readString (acc ++ chunk.data) rest

/-- The method `read`: one line from a reader made for this call, which is
dropped, with what it buffered, when the call returns. -/
def read (conn : Conn) : Option String × Conn := readString [] conn

/-- The loop of `handleConn`, at most `fuel` rounds: read a line, stop at the
end of the stream, else process the line and write the response.  Writes are
taken to succeed.  The result is the responses written, in order, and how the
loop ends: it returns, with the server at the end, or the call of `process`
that it waits for blocks or panics.  `none` is a loop that has rounds left to
run. -/
def handleConnLoop (s : TCPServer) : Nat → Conn → Option (List String × Run TCPServer)
  | 0, _ => none
  | fuel + 1, conn =>
    match read conn with
    | (none, _) => some ([], .returns s)
    | (some line, conn') =>
      match process s line with
      | .panics => some ([], .panics)
      | .blocks => some ([], .blocks)
      | .returns (res, t) =>
        match handleConnLoop t fuel conn' with
        | none => none
        | some (out, e) => some (res :: out, e)

/-- The method `handleConn`: every round that reads a line takes at least one
group from the connection, so one round more than there are groups is enough. -/
def handleConn (s : TCPServer) (conn : Conn) : Option (List String × Run TCPServer) :=
  handleConnLoop s (conn.length + 1) conn

/-! ## Notions used to state the properties -/

/-- The characters of a text without its leading white space. -/
def dropLeadingSpace (l : List Char) : List Char := l.dropWhile unicode.IsSpace

/-- The characters of a text without its trailing white space. -/
def dropTrailingSpace (l : List Char) : List Char :=
  (l.reverse.dropWhile unicode.IsSpace).reverse

/-- Calls `Index` on the packages one after the other: the statuses in the
order of the calls and the indexer at the end. -/
def indexAll (i : InMemoryIndexer) : List Pkg → List String × InMemoryIndexer
  | [] => ([], i)
  | p :: ps => ((Index i p).1 :: (indexAll (Index i p).2 ps).1, (indexAll (Index i p).2 ps).2)

/-- The relation "lists as a dependency" among the packages of a registry: the
package registered under `k` lists the name `d`. -/
def dependsOn (r : Registry) (k d : String) : Prop :=
  ∃ p, mapGet r k = some p ∧ d ∈ p.Deps

/-- Every entry lists only keys of the entries that come after it in the scan
order of the association list, which is the order from the newest entry to the
oldest. -/
def depsLater : Registry → Prop
  | [] => True
  | e :: rest => (∀ d ∈ e.2.Deps, d ∈ keys rest) ∧ depsLater rest

/-! ## Lemmas on the map primitives -/

theorem OK_ne_Fail : OK ≠ Fail := by decide

theorem mapGet_some_mem {r : Registry} {k : String} {p : Pkg}
    (h : mapGet r k = some p) : (k, p) ∈ r := by
  induction r with
  | nil => simp [mapGet] at h
  | cons e rest ih =>
    obtain ⟨k', v⟩ := e
    simp only [mapGet] at h
    split at h
    · rename_i hk
      simp only [Option.some.injEq] at h
      subst hk; subst h
      exact List.mem_cons_self _ _
    · exact List.mem_cons_of_mem _ (ih h)

theorem mapExist_iff_mem_keys (r : Registry) (k : String) :
    mapExist r k = true ↔ k ∈ keys r := by
  induction r with
  | nil => simp [mapExist, mapGet, keys]
  | cons e rest ih =>
    obtain ⟨k', v⟩ := e
    by_cases hk : k' = k
    · simp [mapExist, mapGet, keys, hk]
    · have hk2 : ¬ k = k' := fun h => hk h.symm
      simp only [mapExist, mapGet, keys, hk, hk2, if_false, List.map_cons, List.mem_cons,
        false_or]
      simpa [mapExist, keys] using ih

theorem mapExist_eq_false_iff (r : Registry) (k : String) :
    mapExist r k = false ↔ k ∉ keys r := by
  rw [← mapExist_iff_mem_keys]; simp

theorem mapExist_iff_get (r : Registry) (k : String) :
    mapExist r k = true ↔ ∃ p, mapGet r k = some p := by
  simp [mapExist, Option.isSome_iff_exists]

theorem mem_keys_of_mem {r : Registry} {k : String} {p : Pkg} (h : (k, p) ∈ r) :
    k ∈ keys r := List.mem_map.mpr ⟨(k, p), h, rfl⟩

theorem mapGet_of_mem_WF {r : Registry} {k : String} {p : Pkg}
    (hwf : WF r) (h : (k, p) ∈ r) : mapGet r k = some p := by
  induction r with
  | nil => simp at h
  | cons e rest ih =>
    obtain ⟨k', v⟩ := e
    have hnd : k' ∉ keys rest ∧ WF rest := by simpa [WF, keys] using hwf
    rcases List.mem_cons.mp h with heq | hmem
    · simp only [Prod.mk.injEq] at heq
      simp [mapGet, heq.1, heq.2]
    · have hne : k' ≠ k := fun hk => hnd.1 (hk ▸ mem_keys_of_mem hmem)
      simp only [mapGet, hne, if_false]
      exact ih hnd.2 hmem

theorem mapGet_mapDelete (r : Registry) (k k' : String) :
    mapGet (mapDelete r k) k' = if k' = k then none else mapGet r k' := by
  induction r with
  | nil => simp [mapDelete, mapGet]
  | cons e rest ih =>
    obtain ⟨k0, v⟩ := e
    unfold mapDelete at ih ⊢
    by_cases h0 : k0 = k
    · subst h0
      simp only [List.filter_cons, ne_eq, not_true_eq_false, decide_False, Bool.false_eq_true,
        if_false]
      rw [ih]
      by_cases h1 : k' = k0
      · simp [h1]
      · have : ¬ k0 = k' := fun h => h1 h.symm
        simp [h1, mapGet, this]
    · simp only [List.filter_cons, ne_eq, h0, not_false_eq_true, decide_True, if_true, mapGet]
      rw [ih]
      by_cases h1 : k' = k
      · subst h1; simp [h0]
      · simp [h1]

theorem mem_keys_mapDelete (r : Registry) (k k' : String) :
    k' ∈ keys (mapDelete r k) ↔ k' ∈ keys r ∧ k' ≠ k := by
  rw [← mapExist_iff_mem_keys, ← mapExist_iff_mem_keys, mapExist, mapGet_mapDelete]
  by_cases h : k' = k <;> simp [h, mapExist]

theorem mapDelete_of_not_mem {r : Registry} {k : String} (h : k ∉ keys r) :
    mapDelete r k = r := by
  unfold mapDelete
  rw [List.filter_eq_self]
  intro e he
  have : e.1 ≠ k := fun hk => h (hk ▸ List.mem_map.mpr ⟨e, he, rfl⟩)
  simpa using this

theorem WF_mapDelete {r : Registry} (k : String) (h : WF r) : WF (mapDelete r k) := by
  unfold WF keys mapDelete at *
  exact (List.filter_sublist r).map Prod.fst |>.nodup h

theorem WF_mapSet {r : Registry} (k : String) (v : Pkg) (h : WF r) : WF (mapSet r k v) := by
  have h1 : k ∉ keys (mapDelete r k) := by simp [mem_keys_mapDelete]
  have h2 := WF_mapDelete k h
  unfold WF keys at *
  simp only [mapSet, List.map_cons, List.nodup_cons]
  exact ⟨h1, h2⟩

theorem mapGet_mapSet (r : Registry) (k : String) (v : Pkg) (k' : String) :
    mapGet (mapSet r k v) k' = if k' = k then some v else mapGet r k' := by
  by_cases h : k' = k
  · simp [mapSet, mapGet, h]
  · have : ¬ k = k' := fun h' => h h'.symm
    simp [mapSet, mapGet, h, this, mapGet_mapDelete]

/-! ## Lemmas on the loops of `indexer.go` -/

theorem canIndexLoop_iff (r : Registry) (ds : List String) :
    canIndexLoop r ds = true ↔ ∀ d ∈ ds, mapExist r d = true := by
  induction ds with
  | nil => simp [canIndexLoop]
  | cons d ds ih =>
    by_cases h : mapExist r d = true
    · simp [canIndexLoop, h, ih]
    · simp [canIndexLoop, h]

theorem canRemoveInner_iff (name : String) (deps : List String) (ok : Bool) :
    canRemoveInner name deps ok = true ↔ ok = true ∧ name ∉ deps := by
  induction deps with
  | nil => simp [canRemoveInner]
  | cons d ds ih =>
    by_cases h : d = name
    · simp [canRemoveInner, h]
    · have : ¬ name = d := fun h' => h h'.symm
      simp [canRemoveInner, h, ih, this]

theorem canRemoveLoop_iff (name : String) (r : Registry) (ok : Bool) :
    canRemoveLoop name r ok = true ↔ ok = true ∧ ∀ e ∈ r, name ∉ e.2.Deps := by
  induction r generalizing ok with
  | nil => simp [canRemoveLoop]
  | cons e rest ih =>
    simp only [canRemoveLoop, ih, canRemoveInner_iff, List.mem_cons, forall_eq_or_imp]
    tauto

theorem canRemove_iff (i : InMemoryIndexer) (name : String) :
    canRemove i name = true ↔ ∀ e ∈ i.registry, name ∉ e.2.Deps := by
  simp [canRemove, canRemoveLoop_iff]

/-! ## The registry keeps its keys unique -/

theorem Index_WF (i : InMemoryIndexer) (p : Pkg) (h : WF i.registry) :
    WF (Index i p).2.registry := by
  unfold Index
  split
  · exact h
  · split
    · exact h
    · exact WF_mapSet _ _ h

theorem Remove_WF (i : InMemoryIndexer) (name : String) (h : WF i.registry) :
    WF (Remove i name).2.registry := by
  unfold Remove
  split
  · exact h
  · split
    · exact h
    · exact WF_mapDelete _ h

theorem Query_state (i : InMemoryIndexer) (name : String) : (Query i name).2 = i := by
  unfold Query; split <;> rfl

theorem performAll_WF (cs : List Call) (i : InMemoryIndexer) (h : WF i.registry) :
    WF (performAll i cs).registry := by
  induction cs generalizing i with
  | nil => exact h
  | cons c cs ih =>
    apply ih
    cases c with
    | index p => exact Index_WF i p h
    | remove name => exact Remove_WF i name h
    | query name => simpa [perform, Query_state] using h

/-! ## Dependency closure is kept by every call -/

theorem closed_Index (i : InMemoryIndexer) (p : Pkg)
    (h : ∀ e ∈ i.registry, ∀ d ∈ e.2.Deps, d ∈ keys i.registry) :
    ∀ e ∈ (Index i p).2.registry, ∀ d ∈ e.2.Deps, d ∈ keys (Index i p).2.registry := by
  unfold Index
  split
  · exact h
  · rename_i hn
    split
    · exact h
    · rename_i hc
      have hdeps : ∀ d ∈ p.Deps, d ∈ keys i.registry := by
        intro d hd
        have hc2 : canIndexLoop i.registry p.Deps = true := by simpa [canIndex] using hc
        exact (mapExist_iff_mem_keys _ _).mp ((canIndexLoop_iff _ _).mp hc2 d hd)
      have hnot : p.Name ∉ keys i.registry := by
        rw [← mapExist_iff_mem_keys]; simpa using hn
      have hkeys : ∀ d, d ∈ keys i.registry → d ∈ keys (mapSet i.registry p.Name p) := by
        intro d hd
        simp only [mapSet, keys, List.map_cons, List.mem_cons]
        rw [mapDelete_of_not_mem hnot]
        exact Or.inr hd
      intro e he d hd
      simp only [mapSet, List.mem_cons] at he
      rcases he with rfl | he
      · exact hkeys d (hdeps d hd)
      · rw [mapDelete_of_not_mem hnot] at he
        exact hkeys d (h e he d hd)

theorem closed_Remove (i : InMemoryIndexer) (name : String)
    (h : ∀ e ∈ i.registry, ∀ d ∈ e.2.Deps, d ∈ keys i.registry) :
    ∀ e ∈ (Remove i name).2.registry, ∀ d ∈ e.2.Deps, d ∈ keys (Remove i name).2.registry := by
  unfold Remove
  split
  · exact h
  · split
    · exact h
    · rename_i hc
      have hfree : ∀ e ∈ i.registry, name ∉ e.2.Deps := by
        apply (canRemove_iff i name).mp
        simpa using hc
      intro e he d hd
      have he2 : e ∈ i.registry := by
        simp only [mapDelete] at he
        exact (List.mem_filter.mp he).1
      rw [mem_keys_mapDelete]
      refine ⟨h e he2 d hd, ?_⟩
      rintro rfl
      exact hfree e he2 hd

theorem closed_performAll (cs : List Call) (i : InMemoryIndexer)
    (h : ∀ e ∈ i.registry, ∀ d ∈ e.2.Deps, d ∈ keys i.registry) :
    ∀ e ∈ (performAll i cs).registry, ∀ d ∈ e.2.Deps, d ∈ keys (performAll i cs).registry := by
  induction cs generalizing i with
  | nil => exact h
  | cons c cs ih =>
    apply ih
    cases c with
    | index p => exact closed_Index i p h
    | remove name => exact closed_Remove i name h
    | query name => simpa [perform, Query_state] using h

/-! ## The method `Index` -/

theorem Index_of_exist {i : InMemoryIndexer} {p : Pkg}
    (h : mapExist i.registry p.Name = true) : Index i p = (OK, i) := by
  simp [Index, h]

theorem Index_of_missing {i : InMemoryIndexer} {p : Pkg}
    (hn : mapExist i.registry p.Name = false) {d : String} (hd : d ∈ p.Deps)
    (hm : mapExist i.registry d = false) : Index i p = (Fail, i) := by
  have hc : canIndex i p = false := by
    rw [← Bool.not_eq_true, canIndex, canIndexLoop_iff]
    intro hall
    rw [hall d hd] at hm
    exact Bool.noConfusion hm
  simp [Index, hn, hc]

theorem Index_of_new {i : InMemoryIndexer} {p : Pkg}
    (hn : mapExist i.registry p.Name = false)
    (hd : ∀ d ∈ p.Deps, mapExist i.registry d = true) :
    Index i p = (OK, { registry := (p.Name, p) :: i.registry }) := by
  have hc : canIndex i p = true := (canIndexLoop_iff _ _).mpr hd
  have hnot : p.Name ∉ keys i.registry := (mapExist_eq_false_iff _ _).mp hn
  simp [Index, hn, hc, mapSet, mapDelete_of_not_mem hnot]

theorem Index_cases (i : InMemoryIndexer) (p : Pkg) :
    (mapExist i.registry p.Name = true ∧ Index i p = (OK, i)) ∨
    (mapExist i.registry p.Name = false ∧ (∀ d ∈ p.Deps, mapExist i.registry d = true) ∧
      Index i p = (OK, { registry := (p.Name, p) :: i.registry })) ∨
    (mapExist i.registry p.Name = false ∧ (∃ d ∈ p.Deps, mapExist i.registry d = false) ∧
      Index i p = (Fail, i)) := by
  by_cases hn : mapExist i.registry p.Name = true
  · exact Or.inl ⟨hn, Index_of_exist hn⟩
  · have hn2 : mapExist i.registry p.Name = false := by simpa using hn
    by_cases hd : ∀ d ∈ p.Deps, mapExist i.registry d = true
    · exact Or.inr (Or.inl ⟨hn2, hd, Index_of_new hn2 hd⟩)
    · push_neg at hd
      obtain ⟨d, hd1, hd2⟩ := hd
      have hd3 : mapExist i.registry d = false := by simpa using hd2
      exact Or.inr (Or.inr ⟨hn2, ⟨d, hd1, hd3⟩, Index_of_missing hn2 hd1 hd3⟩)

/-! ## The method `Remove` -/

theorem Remove_of_absent {i : InMemoryIndexer} {name : String}
    (h : mapExist i.registry name = false) : Remove i name = (OK, i) := by
  simp [Remove, h]

theorem Remove_of_listed {i : InMemoryIndexer} {name : String}
    (h : mapExist i.registry name = true) {e : String × Pkg} (he : e ∈ i.registry)
    (hl : name ∈ e.2.Deps) : Remove i name = (Fail, i) := by
  have hc : canRemove i name = false := by
    rw [← Bool.not_eq_true, canRemove_iff]
    intro hall
    exact hall e he hl
  simp [Remove, h, hc]

theorem Remove_of_free {i : InMemoryIndexer} {name : String}
    (h : mapExist i.registry name = true) (hf : ∀ e ∈ i.registry, name ∉ e.2.Deps) :
    Remove i name = (OK, { registry := mapDelete i.registry name }) := by
  have hc : canRemove i name = true := (canRemove_iff _ _).mpr hf
  simp [Remove, h, hc]

theorem Remove_cases (i : InMemoryIndexer) (name : String) :
    (mapExist i.registry name = false ∧ Remove i name = (OK, i)) ∨
    (mapExist i.registry name = true ∧ (∀ e ∈ i.registry, name ∉ e.2.Deps) ∧
      Remove i name = (OK, { registry := mapDelete i.registry name })) ∨
    (mapExist i.registry name = true ∧ (∃ e ∈ i.registry, name ∈ e.2.Deps) ∧
      Remove i name = (Fail, i)) := by
  by_cases hn : mapExist i.registry name = true
  · by_cases hf : ∀ e ∈ i.registry, name ∉ e.2.Deps
    · exact Or.inr (Or.inl ⟨hn, hf, Remove_of_free hn hf⟩)
    · push_neg at hf
      obtain ⟨e, he, hl⟩ := hf
      exact Or.inr (Or.inr ⟨hn, ⟨e, he, hl⟩, Remove_of_listed hn he hl⟩)
  · have hn2 : mapExist i.registry name = false := by simpa using hn
    exact Or.inl ⟨hn2, Remove_of_absent hn2⟩

/-! ## The claims on the registry -/

/-- C1: after every finite sequence of Index, Remove and Query calls on a fresh
registry, every dependency name listed by a registered package is itself
registered. -/
theorem dependency_closure (cs : List Call) (k : String) (p : Pkg) (d : String)
    (hp : mapGet (performAll NewInMemoryIndexer cs).registry k = some p)
    (hd : d ∈ p.Deps) :
    mapExist (performAll NewInMemoryIndexer cs).registry d = true := by
  rw [mapExist_iff_mem_keys]
  have hclosed := closed_performAll cs NewInMemoryIndexer
    (by intro e he; simp [NewInMemoryIndexer] at he)
  exact hclosed (k, p) (mapGet_some_mem hp) d hd

theorem dependency_closure_witness :
    mapGet (performAll NewInMemoryIndexer
        [.index ⟨"a", []⟩, .index ⟨"b", ["a"]⟩, .remove "a", .query "b"]).registry "b"
      = some ⟨"b", ["a"]⟩ ∧
    mapExist (performAll NewInMemoryIndexer
        [.index ⟨"a", []⟩, .index ⟨"b", ["a"]⟩, .remove "a", .query "b"]).registry "a"
      = true :=
  ⟨by decide,
   dependency_closure [.index ⟨"a", []⟩, .index ⟨"b", ["a"]⟩, .remove "a", .query "b"]
     "b" ⟨"b", ["a"]⟩ "a" (by decide) (by decide)⟩

/-- C2: Index returns OK exactly when the name is already registered or every
dependency is registered, and Fail exactly when the name is absent and some
dependency is missing; for a package with the dependencies A and B this reads:
Fail when the name is absent and A or B is missing, OK once both are present. -/
theorem Index_status (i : InMemoryIndexer) (p : Pkg) :
    ((Index i p).1 = OK ↔
      (mapExist i.registry p.Name = true ∨ ∀ d ∈ p.Deps, mapExist i.registry d = true)) ∧
    ((Index i p).1 = Fail ↔
      (mapExist i.registry p.Name = false ∧ ∃ d ∈ p.Deps, mapExist i.registry d = false)) ∧
    (∀ n A B : String,
      ((Index i ⟨n, [A, B]⟩).1 = Fail ↔
        (mapExist i.registry n = false ∧
          (mapExist i.registry A = false ∨ mapExist i.registry B = false))) ∧
      ((mapExist i.registry A = true ∧ mapExist i.registry B = true) →
        (Index i ⟨n, [A, B]⟩).1 = OK)) := by
  have main : ∀ q : Pkg,
      ((Index i q).1 = OK ↔
        (mapExist i.registry q.Name = true ∨ ∀ d ∈ q.Deps, mapExist i.registry d = true)) ∧
      ((Index i q).1 = Fail ↔
        (mapExist i.registry q.Name = false ∧
          ∃ d ∈ q.Deps, mapExist i.registry d = false)) := by
    intro q
    rcases Index_cases i q with ⟨h1, h2⟩ | ⟨h1, h2, h3⟩ | ⟨h1, ⟨d, hd, hm⟩, h3⟩
    · refine ⟨⟨fun _ => Or.inl h1, fun _ => by rw [h2]⟩, ⟨fun h => ?_, fun h => ?_⟩⟩
      · rw [h2] at h; exact absurd h OK_ne_Fail
      · rw [h1] at h; exact Bool.noConfusion h.1
    · refine ⟨⟨fun _ => Or.inr h2, fun _ => by rw [h3]⟩, ⟨fun h => ?_, fun h => ?_⟩⟩
      · rw [h3] at h; exact absurd h OK_ne_Fail
      · obtain ⟨_, d, hd, hm⟩ := h
        rw [h2 d hd] at hm; exact Bool.noConfusion hm
    · refine ⟨⟨fun h => ?_, fun h => ?_⟩, ⟨fun _ => ⟨h1, d, hd, hm⟩, fun _ => by rw [h3]⟩⟩
      · rw [h3] at h; exact absurd h.symm OK_ne_Fail
      · rcases h with h | h
        · rw [h1] at h; exact Bool.noConfusion h
        · rw [h d hd] at hm; exact Bool.noConfusion hm
  refine ⟨(main p).1, (main p).2, fun n A B => ⟨?_, ?_⟩⟩
  · rw [(main ⟨n, [A, B]⟩).2]
    simp
  · intro h
    rw [(main ⟨n, [A, B]⟩).1]
    right
    simpa using h

/-- C3: on a registry with unique keys, Remove returns Fail exactly when the
name is registered and some registered package lists it, and OK otherwise; the
status is the same for every order in which the packages are scanned. -/
theorem Remove_status (i : InMemoryIndexer) (name : String) (hwf : WF i.registry) :
    ((Remove i name).1 = Fail ↔
      (mapExist i.registry name = true ∧
        ∃ k p, mapGet i.registry k = some p ∧ name ∈ p.Deps)) ∧
    ((Remove i name).1 = OK ↔
      ¬ (mapExist i.registry name = true ∧
        ∃ k p, mapGet i.registry k = some p ∧ name ∈ p.Deps)) ∧
    (∀ j : InMemoryIndexer, j.registry.Perm i.registry →
      (Remove j name).1 = (Remove i name).1) := by
  have listed : (∃ k p, mapGet i.registry k = some p ∧ name ∈ p.Deps) ↔
      ∃ e ∈ i.registry, name ∈ e.2.Deps := by
    constructor
    · rintro ⟨k, p, hg, hl⟩
      exact ⟨(k, p), mapGet_some_mem hg, hl⟩
    · rintro ⟨⟨k, p⟩, he, hl⟩
      exact ⟨k, p, mapGet_of_mem_WF hwf he, hl⟩
  have hfail : (Remove i name).1 = Fail ↔
      (mapExist i.registry name = true ∧ ∃ e ∈ i.registry, name ∈ e.2.Deps) := by
    rcases Remove_cases i name with ⟨h1, h2⟩ | ⟨h1, h2, h3⟩ | ⟨h1, h2, h3⟩
    · rw [h2, h1]
      exact ⟨fun h => absurd h OK_ne_Fail, fun h => Bool.noConfusion h.1⟩
    · rw [h3]
      refine ⟨fun h => absurd h OK_ne_Fail, fun h => ?_⟩
      obtain ⟨_, e, he, hl⟩ := h
      exact absurd hl (h2 e he)
    · rw [h3]
      exact ⟨fun _ => ⟨h1, h2⟩, fun _ => rfl⟩
  have hok : (Remove i name).1 = OK ↔ ¬ (Remove i name).1 = Fail := by
    rcases Remove_cases i name with ⟨_, h2⟩ | ⟨_, _, h3⟩ | ⟨_, _, h3⟩
    · rw [h2]; exact ⟨fun _ => OK_ne_Fail, fun _ => rfl⟩
    · rw [h3]; exact ⟨fun _ => OK_ne_Fail, fun _ => rfl⟩
    · rw [h3]; exact ⟨fun h => absurd h.symm OK_ne_Fail, fun h => absurd rfl h⟩
  refine ⟨by rw [hfail, listed], by rw [hok, hfail, listed], ?_⟩
  intro j hperm
  have hex : mapExist j.registry name = mapExist i.registry name := by
    rw [Bool.eq_iff_iff, mapExist_iff_mem_keys, mapExist_iff_mem_keys]
    exact (hperm.map Prod.fst).mem_iff
  have hcan : canRemove j name = canRemove i name := by
    rw [Bool.eq_iff_iff, canRemove_iff, canRemove_iff]
    exact ⟨fun h e he => h e (hperm.mem_iff.mpr he), fun h e he => h e (hperm.mem_iff.mp he)⟩
  unfold Remove
  rw [hex, hcan]
  split
  · rfl
  · split <;> rfl

theorem Remove_status_witness :
    (Remove ⟨[("a", ⟨"a", []⟩), ("b", ⟨"b", ["a"]⟩)]⟩ "a").1 = Fail ∧
    (Remove ⟨[("b", ⟨"b", ["a"]⟩), ("a", ⟨"a", []⟩)]⟩ "a").1 =
      (Remove ⟨[("a", ⟨"a", []⟩), ("b", ⟨"b", ["a"]⟩)]⟩ "a").1 :=
  ⟨(Remove_status ⟨[("a", ⟨"a", []⟩), ("b", ⟨"b", ["a"]⟩)]⟩ "a" (by decide)).1.mpr
      ⟨by decide, "b", ⟨"b", ["a"]⟩, by decide, by decide⟩,
   (Remove_status ⟨[("a", ⟨"a", []⟩), ("b", ⟨"b", ["a"]⟩)]⟩ "a" (by decide)).2.2
      ⟨[("b", ⟨"b", ["a"]⟩), ("a", ⟨"a", []⟩)]⟩ (List.Perm.swap _ _ _)⟩

/-- C4: a call of Index or Remove that returns Fail leaves the registry as it
was before the call. -/
theorem failed_call_keeps_registry (i : InMemoryIndexer) :
    (∀ p : Pkg, (Index i p).1 = Fail → (Index i p).2 = i) ∧
    (∀ name : String, (Remove i name).1 = Fail → (Remove i name).2 = i) := by
  constructor
  · intro p h
    rcases Index_cases i p with ⟨_, h2⟩ | ⟨_, _, h3⟩ | ⟨_, _, h3⟩
    · rw [h2]
    · rw [h3] at h; exact absurd h OK_ne_Fail
    · rw [h3]
  · intro name h
    rcases Remove_cases i name with ⟨_, h2⟩ | ⟨_, _, h3⟩ | ⟨_, _, h3⟩
    · rw [h2]
    · rw [h3] at h; exact absurd h OK_ne_Fail
    · rw [h3]

theorem failed_call_keeps_registry_witness :
    (Index ⟨[("a", ⟨"a", []⟩), ("b", ⟨"b", ["a"]⟩)]⟩ ⟨"c", ["a", "z"]⟩).2
      = ⟨[("a", ⟨"a", []⟩), ("b", ⟨"b", ["a"]⟩)]⟩ ∧
    (Remove ⟨[("a", ⟨"a", []⟩), ("b", ⟨"b", ["a"]⟩)]⟩ "a").2
      = ⟨[("a", ⟨"a", []⟩), ("b", ⟨"b", ["a"]⟩)]⟩ :=
  ⟨(failed_call_keeps_registry ⟨[("a", ⟨"a", []⟩), ("b", ⟨"b", ["a"]⟩)]⟩).1
      ⟨"c", ["a", "z"]⟩ (by decide),
   (failed_call_keeps_registry ⟨[("a", ⟨"a", []⟩), ("b", ⟨"b", ["a"]⟩)]⟩).2
      "a" (by decide)⟩

/-- C5: when a name is registered, in particular after a first Index of that
name returned OK, Index of any package with that name returns OK and leaves the
registry unchanged, whatever its dependency list; the entry stored by the first
Index keeps the first package. -/
theorem Index_registered_idempotent (i : InMemoryIndexer) (p1 p2 : Pkg)
    (hname : p2.Name = p1.Name) :
    (mapExist i.registry p1.Name = true → Index i p2 = (OK, i)) ∧
    ((Index i p1).1 = OK → Index (Index i p1).2 p2 = (OK, (Index i p1).2)) ∧
    (mapExist i.registry p1.Name = false → (Index i p1).1 = OK →
      mapGet (Index (Index i p1).2 p2).2.registry p1.Name = some p1) := by
  have hreg : (Index i p1).1 = OK → mapExist (Index i p1).2.registry p1.Name = true := by
    intro h
    rcases Index_cases i p1 with ⟨h1, h2⟩ | ⟨_, _, h3⟩ | ⟨_, _, h3⟩
    · rw [h2]; exact h1
    · rw [h3]; simp [mapExist, mapGet]
    · rw [h3] at h; exact absurd h.symm OK_ne_Fail
  have hsecond : (Index i p1).1 = OK → Index (Index i p1).2 p2 = (OK, (Index i p1).2) :=
    fun h => Index_of_exist (by rw [hname]; exact hreg h)
  refine ⟨fun h => Index_of_exist (by rw [hname]; exact h), hsecond, ?_⟩
  intro hn hok
  rw [hsecond hok]
  rcases Index_cases i p1 with ⟨h1, _⟩ | ⟨_, _, h3⟩ | ⟨_, _, h3⟩
  · rw [h1] at hn; exact Bool.noConfusion hn
  · rw [h3]; simp [mapGet]
  · rw [h3] at hok; exact absurd hok.symm OK_ne_Fail

theorem Index_registered_idempotent_witness :
    Index (Index NewInMemoryIndexer ⟨"a", []⟩).2 ⟨"a", ["missing"]⟩
      = (OK, (Index NewInMemoryIndexer ⟨"a", []⟩).2) ∧
    mapGet (Index (Index NewInMemoryIndexer ⟨"a", []⟩).2 ⟨"a", ["missing"]⟩).2.registry "a"
      = some ⟨"a", []⟩ :=
  ⟨(Index_registered_idempotent NewInMemoryIndexer ⟨"a", []⟩ ⟨"a", ["missing"]⟩ rfl).2.1
      (by decide),
   (Index_registered_idempotent NewInMemoryIndexer ⟨"a", []⟩ ⟨"a", ["missing"]⟩ rfl).2.2
      (by decide) (by decide)⟩

/-- C6: Index of a package whose name is not registered and whose dependencies
are all registered returns OK; afterwards the name maps to that very package,
with its dependency list as given, every other name maps to what it mapped to
before, and the registry holds one entry more. -/
theorem Index_new_package (i : InMemoryIndexer) (p : Pkg)
    (hn : mapExist i.registry p.Name = false)
    (hd : ∀ d ∈ p.Deps, mapExist i.registry d = true) :
    (Index i p).1 = OK ∧
    mapGet (Index i p).2.registry p.Name = some p ∧
    (∀ k : String, k ≠ p.Name → mapGet (Index i p).2.registry k = mapGet i.registry k) ∧
    count (Index i p).2 = count i + 1 := by
  rw [Index_of_new hn hd]
  refine ⟨rfl, by simp [mapGet], ?_, by simp [count]⟩
  intro k hk
  have : ¬ p.Name = k := fun h => hk h.symm
  simp [mapGet, this]

theorem Index_new_package_witness :
    (Index ⟨[("a", ⟨"a", []⟩)]⟩ ⟨"b", ["a", "a"]⟩).1 = OK ∧
    mapGet (Index ⟨[("a", ⟨"a", []⟩)]⟩ ⟨"b", ["a", "a"]⟩).2.registry "b"
      = some ⟨"b", ["a", "a"]⟩ ∧
    (∀ k : String, k ≠ "b" →
      mapGet (Index ⟨[("a", ⟨"a", []⟩)]⟩ ⟨"b", ["a", "a"]⟩).2.registry k
        = mapGet [("a", ⟨"a", []⟩)] k) ∧
    count (Index ⟨[("a", ⟨"a", []⟩)]⟩ ⟨"b", ["a", "a"]⟩).2 = 1 + 1 :=
  Index_new_package ⟨[("a", ⟨"a", []⟩)]⟩ ⟨"b", ["a", "a"]⟩ (by decide) (by decide)

/-- C7, as stated, fails: on the empty registry the package `a` that lists
itself has an unregistered name and no dependency other than its own name,
and Index returns Fail and registers nothing. -/
theorem Index_self_dependency_counterexample :
    mapExist NewInMemoryIndexer.registry (Pkg.mk "a" ["a"]).Name = false ∧
    (∀ d ∈ (Pkg.mk "a" ["a"]).Deps, d ≠ (Pkg.mk "a" ["a"]).Name →
      mapExist NewInMemoryIndexer.registry d = true) ∧
    Index NewInMemoryIndexer (Pkg.mk "a" ["a"]) = (Fail, NewInMemoryIndexer) ∧
    ¬ ((Index NewInMemoryIndexer (Pkg.mk "a" ["a"])).1 = OK ∧
      mapGet (Index NewInMemoryIndexer (Pkg.mk "a" ["a"])).2.registry "a"
        = some (Pkg.mk "a" ["a"])) := by
  decide

/-- C7, amended: Index checks the own name of a package like any other
dependency.  A package whose name is not registered is registered, with OK,
exactly when all its dependencies are registered, its own name included; a
package that lists its own name gets OK only when the name is already
registered, and Fail otherwise, and the registry is unchanged either way. -/
theorem Index_self_dependency (i : InMemoryIndexer) (p : Pkg) :
    (mapExist i.registry p.Name = false →
      (((Index i p).1 = OK ∧ mapGet (Index i p).2.registry p.Name = some p) ↔
        ∀ d ∈ p.Deps, mapExist i.registry d = true)) ∧
    (p.Name ∈ p.Deps →
      Index i p = (if mapExist i.registry p.Name = true then OK else Fail, i)) := by
  constructor
  · intro hn
    constructor
    · rintro ⟨hok, _⟩
      rcases Index_cases i p with ⟨h1, _⟩ | ⟨_, h2, _⟩ | ⟨_, _, h3⟩
      · rw [h1] at hn; exact Bool.noConfusion hn
      · exact h2
      · rw [h3] at hok; exact absurd hok.symm OK_ne_Fail
    · intro hd
      rw [Index_of_new hn hd]
      exact ⟨rfl, by simp [mapGet]⟩
  · intro hself
    by_cases hn : mapExist i.registry p.Name = true
    · rw [Index_of_exist hn, if_pos hn]
    · have hn2 : mapExist i.registry p.Name = false := by simpa using hn
      rw [Index_of_missing hn2 hself hn2, if_neg hn]

theorem Index_self_dependency_witness :
    Index ⟨[("b", ⟨"b", []⟩)]⟩ ⟨"a", ["b", "a"]⟩ = (Fail, ⟨[("b", ⟨"b", []⟩)]⟩) ∧
    ((Index ⟨[("b", ⟨"b", []⟩)]⟩ ⟨"a", ["b"]⟩).1 = OK ∧
      mapGet (Index ⟨[("b", ⟨"b", []⟩)]⟩ ⟨"a", ["b"]⟩).2.registry "a" = some ⟨"a", ["b"]⟩) :=
  ⟨(Index_self_dependency ⟨[("b", ⟨"b", []⟩)]⟩ ⟨"a", ["b", "a"]⟩).2 (by decide),
   ((Index_self_dependency ⟨[("b", ⟨"b", []⟩)]⟩ ⟨"a", ["b"]⟩).1 (by decide)).mpr
     (by decide)⟩

/-- C8: on a registry with unique keys, Remove of a registered name that no
registered package lists returns OK; whenever Remove returns OK the name is
not registered afterwards, every other name maps to what it mapped to before,
and a second Remove of the name returns OK and changes nothing; Remove of an
absent name returns OK and changes nothing. -/
theorem Remove_OK_frame (i : InMemoryIndexer) (name : String) (hwf : WF i.registry) :
    ((∀ k p, mapGet i.registry k = some p → name ∉ p.Deps) → (Remove i name).1 = OK) ∧
    ((Remove i name).1 = OK →
      mapExist (Remove i name).2.registry name = false ∧
      (∀ k : String, k ≠ name →
        mapGet (Remove i name).2.registry k = mapGet i.registry k) ∧
      Remove (Remove i name).2 name = (OK, (Remove i name).2)) ∧
    (mapExist i.registry name = false → Remove i name = (OK, i)) := by
  refine ⟨?_, ?_, fun h => Remove_of_absent h⟩
  · intro hfree
    rcases Remove_cases i name with ⟨_, h2⟩ | ⟨_, _, h3⟩ | ⟨_, ⟨⟨k, p⟩, he, hl⟩, _⟩
    · rw [h2]
    · rw [h3]
    · exact absurd hl (hfree k p (mapGet_of_mem_WF hwf he))
  · intro hok
    have habsent : mapExist (Remove i name).2.registry name = false := by
      rcases Remove_cases i name with ⟨h1, h2⟩ | ⟨_, _, h3⟩ | ⟨_, _, h3⟩
      · rw [h2]; exact h1
      · rw [h3]; simp [mapExist, mapGet_mapDelete]
      · rw [h3] at hok; exact absurd hok.symm OK_ne_Fail
    refine ⟨habsent, ?_, Remove_of_absent habsent⟩
    intro k hk
    rcases Remove_cases i name with ⟨_, h2⟩ | ⟨_, _, h3⟩ | ⟨_, _, h3⟩
    · rw [h2]
    · rw [h3]; simp [mapGet_mapDelete, hk]
    · rw [h3]

theorem Remove_OK_frame_witness :
    mapExist (Remove ⟨[("b", ⟨"b", ["a"]⟩), ("a", ⟨"a", []⟩)]⟩ "b").2.registry "b" = false ∧
    (∀ k : String, k ≠ "b" →
      mapGet (Remove ⟨[("b", ⟨"b", ["a"]⟩), ("a", ⟨"a", []⟩)]⟩ "b").2.registry k
        = mapGet [("b", ⟨"b", ["a"]⟩), ("a", ⟨"a", []⟩)] k) ∧
    Remove (Remove ⟨[("b", ⟨"b", ["a"]⟩), ("a", ⟨"a", []⟩)]⟩ "b").2 "b"
      = (OK, (Remove ⟨[("b", ⟨"b", ["a"]⟩), ("a", ⟨"a", []⟩)]⟩ "b").2) :=
  (Remove_OK_frame ⟨[("b", ⟨"b", ["a"]⟩), ("a", ⟨"a", []⟩)]⟩ "b" (by decide)).2.1
    (by decide)

/-- C9: Query returns OK exactly when the name is registered and Fail exactly
when it is not, and the registry after the call is the registry before it. -/
theorem Query_status (i : InMemoryIndexer) (name : String) :
    ((Query i name).1 = OK ↔ mapExist i.registry name = true) ∧
    ((Query i name).1 = Fail ↔ mapExist i.registry name = false) ∧
    (Query i name).2 = i := by
  refine ⟨?_, ?_, Query_state i name⟩
  · by_cases h : mapExist i.registry name = true
    · simp [Query, h]
    · have h2 : mapExist i.registry name = false := by simpa using h
      simp only [Query, h2, Bool.false_eq_true, if_false, iff_false]
      exact Ne.symm OK_ne_Fail
  · by_cases h : mapExist i.registry name = true
    · simp only [Query, h, if_true]
      exact ⟨fun h' => absurd h' OK_ne_Fail, fun h' => Bool.noConfusion h'⟩
    · simp [Query, h]

/-! ## Lemmas on the string functions -/

theorem intercalate_go_data (acc sep : String) (l : List String) :
    (String.intercalate.go acc sep l).data
      = acc.data ++ (l.map (fun a => sep.data ++ a.data)).flatten := by
  induction l generalizing acc with
  | nil => simp [String.intercalate.go]
  | cons a l ih => simp [String.intercalate.go, ih, List.append_assoc]

theorem intercalate_data (sep : String) (l : List String) :
    (String.intercalate sep l).data = sep.data.intercalate (l.map String.data) := by
  cases l with
  | nil => rfl
  | cons a l =>
    simp only [String.intercalate, intercalate_go_data, List.map_cons, List.intercalate]
    induction l generalizing a with
    | nil => simp
    | cons b l ih =>
      have := ih b
      simp only [List.map_cons, List.flatten_cons, List.intersperse_cons_cons] at this ⊢
      rw [← this, List.append_assoc]

theorem mem_intercalate_singleton {sep ch : Char} {ls : List (List Char)}
    (h : ch ∈ [sep].intercalate ls) : ch = sep ∨ ∃ l ∈ ls, ch ∈ l := by
  induction ls with
  | nil => simp [List.intercalate] at h
  | cons a ls ih =>
    cases ls with
    | nil =>
      right
      exact ⟨a, List.mem_cons_self _ _, by simpa [List.intercalate] using h⟩
    | cons b ls =>
      simp only [List.intercalate, List.intersperse_cons_cons, List.flatten_cons,
        List.mem_append, List.mem_singleton] at h ih
      rcases h with h | h | h
      · exact Or.inr ⟨a, List.mem_cons_self _ _, h⟩
      · exact Or.inl h
      · rcases ih h with h' | ⟨l, hl, hch⟩
        · exact Or.inl h'
        · exact Or.inr ⟨l, List.mem_cons_of_mem _ hl, hch⟩

theorem dropWhile_append_of_head {p : Char → Bool} {l : List Char} (hne : l ≠ [])
    (h : ∀ x ∈ l, p x = false) (r : List Char) : (l ++ r).dropWhile p = l ++ r := by
  cases l with
  | nil => exact absurd rfl hne
  | cons a t => simp [List.dropWhile, h a (List.mem_cons_self _ _)]

theorem dropWhile_of_all_false {p : Char → Bool} {l : List Char}
    (h : ∀ x ∈ l, p x = false) : l.dropWhile p = l := by
  cases l with
  | nil => rfl
  | cons a t => simp [List.dropWhile, h a (List.mem_cons_self _ _)]

theorem TrimSpace_line {l : List Char} (hne : l ≠ [])
    (h : ∀ x ∈ l, unicode.IsSpace x = false) :
    strings.TrimSpace ⟨l ++ ['\n']⟩ = ⟨l⟩ := by
  have hnl : unicode.IsSpace '\n' = true := by decide
  have hrev : ∀ x ∈ l.reverse, unicode.IsSpace x = false :=
    fun x hx => h x (List.mem_reverse.mp hx)
  simp only [strings.TrimSpace]
  rw [dropWhile_append_of_head hne h, List.reverse_append]
  simp [List.dropWhile, hnl, dropWhile_of_all_false hrev]

theorem isToken_iff (t : String) :
    isToken t = true ↔
      t.data ≠ [] ∧ ∀ ch ∈ t.data, unicode.IsSpace ch = false ∧ ch ≠ '|' ∧ ch ≠ ',' := by
  simp [isToken, msgDelimiter, depsDelimiter, List.isEmpty_iff, and_assoc]

/-! ## The claims on the decoder -/

/-- C10: for tokens c, n and d1..dk (non-empty, without white space, `|` or `,`;
k may be 0) ParseMsg of the line `c|n|d1,...,dk` with its newline returns no
error, the command c and the package with name n and the dependencies d1..dk
in that order; the command c is any token, recognised or not. -/
theorem ParseMsg_well_formed (c n : String) (ds : List String)
    (hc : isToken c = true) (hn : isToken n = true) (hds : ∀ d ∈ ds, isToken d = true) :
    ParseMsg (c ++ "|" ++ n ++ "|" ++ String.intercalate "," ds ++ "\n")
      = some ⟨some ⟨n, ds⟩, c, none⟩ := by
  obtain ⟨hc0, hc1⟩ := (isToken_iff c).mp hc
  obtain ⟨hn0, hn1⟩ := (isToken_iff n).mp hn
  have hds1 : ∀ d ∈ ds, d.data ≠ [] ∧
      ∀ ch ∈ d.data, unicode.IsSpace ch = false ∧ ch ≠ '|' ∧ ch ≠ ',' :=
    fun d hd => (isToken_iff d).mp (hds d hd)
  -- the dependency field
  obtain ⟨D, hD⟩ : ∃ D, D = [','].intercalate (ds.map String.data) := ⟨_, rfl⟩
  have hDmem : ∀ ch ∈ D, unicode.IsSpace ch = false ∧ ch ≠ '|' := by
    intro ch hch
    rw [hD] at hch
    rcases mem_intercalate_singleton hch with rfl | ⟨l, hl, hl2⟩
    · exact ⟨by decide, by decide⟩
    · obtain ⟨d, hd, rfl⟩ := List.mem_map.mp hl
      exact ⟨((hds1 d hd).2 ch hl2).1, ((hds1 d hd).2 ch hl2).2.1⟩
  have hDsplit : (if (String.mk D) ≠ "" then some (strings.Split ⟨D⟩ depsDelimiter)
      else some []) = some ds := by
    cases ds with
    | nil => simp [hD, List.intercalate]
    | cons d ds' =>
      have hne : D ≠ [] := by
        have hd0 := (hds1 d (List.mem_cons_self _ _)).1
        rw [hD]
        cases ds' <;> simp [List.intercalate, hd0]
      have hne2 : String.mk D ≠ "" := fun h => hne (congrArg String.data h)
      rw [if_pos hne2]
      simp only [strings.Split, depsDelimiter, Option.some.injEq]
      rw [hD, List.splitOn_intercalate]
      · simp [List.map_map, Function.comp_def]
      · intro l hl
        obtain ⟨d', hd', rfl⟩ := List.mem_map.mp hl
        exact fun hmem => ((hds1 d' hd').2 ',' hmem).2.2 rfl
      · simp
  -- the line without its newline
  obtain ⟨M, hM⟩ : ∃ M, M = ['|'].intercalate [c.data, n.data, D] := ⟨_, rfl⟩
  have hM2 : M = c.data ++ '|' :: (n.data ++ '|' :: D) := by
    simp [hM, List.intercalate]
  have hline : c ++ "|" ++ n ++ "|" ++ String.intercalate "," ds ++ "\n"
      = ⟨M ++ ['\n']⟩ := by
    apply String.ext
    simp [hM2, hD, intercalate_data]
  have hMne : M ≠ [] := by rw [hM2]; cases c.data <;> simp
  have hMspace : ∀ ch ∈ M, unicode.IsSpace ch = false := by
    intro ch hch
    rw [hM2] at hch
    simp only [List.mem_append, List.mem_cons] at hch
    rcases hch with h | rfl | h | rfl | h
    · exact (hc1 ch h).1
    · decide
    · exact (hn1 ch h).1
    · decide
    · exact (hDmem ch h).1
  have hsplit : strings.Split ⟨M⟩ msgDelimiter = [c, n, ⟨D⟩] := by
    simp only [strings.Split, msgDelimiter]
    rw [hM, List.splitOn_intercalate]
    · simp
    · intro l hl
      simp only [List.mem_cons, List.mem_singleton, List.not_mem_nil, or_false] at hl
      rcases hl with rfl | rfl | rfl
      · exact fun hmem => (hc1 '|' hmem).2.1 rfl
      · exact fun hmem => (hn1 '|' hmem).2.1 rfl
      · exact fun hmem => (hDmem '|' hmem).2 rfl
    · simp
  have hcount : strings.Count ⟨M ++ ['\n']⟩ msgDelimiter = 2 := by
    have h1 : List.count '|' c.data = 0 :=
      List.count_eq_zero.mpr fun hmem => (hc1 '|' hmem).2.1 rfl
    have h2 : List.count '|' n.data = 0 :=
      List.count_eq_zero.mpr fun hmem => (hn1 '|' hmem).2.1 rfl
    have h3 : List.count '|' D = 0 :=
      List.count_eq_zero.mpr fun hmem => (hDmem '|' hmem).2 rfl
    simp [strings.Count, msgDelimiter, hM2, List.count_append, List.count_cons, h1, h2, h3]
  have hwell : isWellStructured ⟨M ++ ['\n']⟩ = true := by
    have hsuf : strings.HasSuffix ⟨M ++ ['\n']⟩ msgSuffix = true := by
      simp [strings.HasSuffix, msgSuffix]
    simp [isWellStructured, hsuf, hcount, msgDelimitersCount]
  have hcne : c ≠ "" := fun h => hc0 (congrArg String.data h)
  have hnne : n ≠ "" := fun h => hn0 (congrArg String.data h)
  have hfields : extractFields ⟨M ++ ['\n']⟩ = .value [c, n, ⟨D⟩] := by
    simp [extractFields, TrimSpace_line hMne hMspace, hsplit, hcne, hnne]
  have hdeps : extractDeps [c, n, ⟨D⟩] = some ds := by
    simpa [extractDeps, splitsMax] using hDsplit
  rw [hline]
  simp [ParseMsg, hwell, hfields, hdeps]

theorem ParseMsg_well_formed_witness :
    ParseMsg ("FROB" ++ "|" ++ "nginx" ++ "|" ++ String.intercalate "," ["pcre", "zlib"]
        ++ "\n")
      = some ⟨some ⟨"nginx", ["pcre", "zlib"]⟩, "FROB", none⟩ :=
  ParseMsg_well_formed "FROB" "nginx" ["pcre", "zlib"] (by decide) (by decide) (by decide)

/-! ## The fields of a line -/

theorem exists_first_sep {sep : Char} {l : List Char} (h : sep ∈ l) :
    ∃ a b, l = a ++ sep :: b ∧ sep ∉ a := by
  induction l with
  | nil => simp at h
  | cons x l ih =>
    by_cases hx : x = sep
    · exact ⟨[], l, by simp [hx], by simp⟩
    · have hmem : sep ∈ l := by
        rcases List.mem_cons.mp h with h' | h'
        · exact absurd h'.symm hx
        · exact h'
      obtain ⟨a, b, hab, hna⟩ := ih hmem
      refine ⟨x :: a, b, by simp [hab], ?_⟩
      simp only [List.mem_cons, not_or]
      exact ⟨fun h' => hx h'.symm, hna⟩

/-- A text with two separators or more is a first field, a second field and
the rest, the two fields without a separator. -/
theorem line_fields {l : List Char} (h : 2 ≤ l.count '|') :
    ∃ f0 f1 R, l = f0 ++ '|' :: (f1 ++ '|' :: R) ∧ '|' ∉ f0 ∧ '|' ∉ f1 := by
  have h1 : '|' ∈ l := List.count_pos_iff.mp (by omega)
  obtain ⟨f0, b, hl, h0⟩ := exists_first_sep h1
  have hb : '|' ∈ b := by
    apply List.count_pos_iff.mp
    rw [hl, List.count_append, List.count_cons_self, List.count_eq_zero.mpr h0] at h
    omega
  obtain ⟨f1, R, hb2, h1'⟩ := exists_first_sep hb
  exact ⟨f0, f1, R, by rw [hl, hb2], h0, h1'⟩

theorem dropWhile_append_cons {p : Char → Bool} (a : List Char) {b : Char} (c : List Char)
    (hb : p b = false) : (a ++ b :: c).dropWhile p = a.dropWhile p ++ b :: c := by
  induction a with
  | nil => simp [List.dropWhile, hb]
  | cons x a ih =>
    by_cases hx : p x = true
    · simp [List.dropWhile, hx, ih]
    · simp [List.dropWhile, hx]

theorem TrimSpace_fields (f0 f1 R : List Char) :
    strings.TrimSpace ⟨f0 ++ '|' :: (f1 ++ '|' :: R)⟩
      = ⟨dropLeadingSpace f0 ++ '|' :: (f1 ++ '|' :: dropTrailingSpace R)⟩ := by
  have hbar : unicode.IsSpace '|' = false := by decide
  have h1 : (f0 ++ '|' :: (f1 ++ '|' :: R)).dropWhile unicode.IsSpace
      = (dropLeadingSpace f0 ++ '|' :: f1) ++ '|' :: R := by
    rw [dropWhile_append_cons _ _ hbar]
    simp [dropLeadingSpace]
  have h2 : ((dropLeadingSpace f0 ++ '|' :: f1) ++ '|' :: R).reverse
      = R.reverse ++ '|' :: (dropLeadingSpace f0 ++ '|' :: f1).reverse := by
    simp
  simp only [strings.TrimSpace]
  rw [h1, h2, dropWhile_append_cons _ _ hbar]
  simp [dropTrailingSpace]

theorem dropTrailingSpace_newline (l : List Char) :
    dropTrailingSpace (l ++ ['\n']) = dropTrailingSpace l := by
  have hnl : unicode.IsSpace '\n' = true := by decide
  simp [dropTrailingSpace, List.dropWhile, hnl]

theorem mem_dropLeadingSpace {ch : Char} {l : List Char} (h : ch ∈ dropLeadingSpace l) :
    ch ∈ l := (List.dropWhile_suffix _).subset h

theorem mem_dropTrailingSpace {ch : Char} (l : List Char) (hch : unicode.IsSpace ch = false) :
    ch ∈ dropTrailingSpace l ↔ ch ∈ l := by
  have key : ∀ m : List Char, ch ∈ m.dropWhile unicode.IsSpace ↔ ch ∈ m := by
    intro m
    induction m with
    | nil => simp
    | cons x m ih =>
      by_cases hx : unicode.IsSpace x = true
      · have hne : ch ≠ x := fun h => by rw [h, hx] at hch; exact Bool.noConfusion hch
        simp [List.dropWhile, hx, ih, hne]
      · simp [List.dropWhile, hx]
  simp [dropTrailingSpace, key]

theorem dropLeadingSpace_ne_nil {l : List Char} :
    dropLeadingSpace l ≠ [] ↔ ∃ ch ∈ l, unicode.IsSpace ch = false := by
  induction l with
  | nil => simp [dropLeadingSpace]
  | cons x l ih =>
    by_cases hx : unicode.IsSpace x = true
    · simp only [dropLeadingSpace, List.dropWhile, hx] at ih ⊢
      rw [ih]
      simp [hx]
    · simp only [dropLeadingSpace, List.dropWhile, hx]
      simp only [ne_eq, List.cons_ne_nil, not_false_eq_true, List.mem_cons, true_iff]
      exact ⟨x, Or.inl rfl, by simpa using hx⟩

theorem Split_single {T : List Char} {sep : Char} (h : sep ∉ T) :
    strings.Split ⟨T⟩ sep = [⟨T⟩] := by
  simp only [strings.Split, List.splitOn]
  rw [List.splitOnP_eq_single]
  · rfl
  · intro x hx hp
    rw [beq_iff_eq] at hp
    exact h (hp ▸ hx)

theorem Split_first {A : List Char} {sep : Char} (T : List Char) (hA : sep ∉ A) :
    strings.Split ⟨A ++ sep :: T⟩ sep = ⟨A⟩ :: strings.Split ⟨T⟩ sep := by
  simp only [strings.Split, List.splitOn]
  rw [List.splitOnP_first]
  · rfl
  · intro x hx hp
    rw [beq_iff_eq] at hp
    exact hA (hp ▸ hx)
  · simp

theorem length_splitOn (sep : Char) (l : List Char) :
    (l.splitOn sep).length = l.count sep + 1 := by
  simp only [List.splitOn]
  induction l with
  | nil => simp
  | cons x l ih =>
    rw [List.splitOnP_cons]
    by_cases hx : x = sep
    · simp [hx, ih]
    · have hx2 : (x == sep) = false := by simpa using hx
      simp [hx2, ih, List.count_cons, hx]

theorem length_Split (s : String) (sep : Char) :
    (strings.Split s sep).length = s.data.count sep + 1 := by
  simp [strings.Split, length_splitOn]

theorem extractDeps_isSome (splits : List String) : ∃ deps, extractDeps splits = some deps := by
  unfold extractDeps
  by_cases h : splits.length = splitsMax
  · rw [if_pos h]
    have hlt : splitsMax - 1 < splits.length := by rw [h]; decide
    rw [List.getElem?_eq_getElem hlt]
    by_cases hf : splits[splitsMax - 1] ≠ ""
    · exact ⟨_, if_pos hf⟩
    · exact ⟨[], if_neg hf⟩
  · exact ⟨[], by rw [if_neg h]⟩


theorem mk_eq_empty_iff (l : List Char) : String.mk l = "" ↔ l = [] := by
  constructor
  · intro h; exact congrArg String.data h
  · intro h; rw [h]

theorem suffix_newline_fields {X R : List Char} (h : ['\n'] <:+ X ++ '|' :: R) :
    ['\n'] <:+ R := by
  obtain ⟨t, ht⟩ := h
  rcases List.eq_nil_or_concat R with rfl | ⟨L, b, hLb⟩
  on_goal 2 => rw [List.concat_eq_append] at hLb; subst hLb
  · have h2 : t ++ ['\n'] = X ++ ['|'] := ht
    have h3 := List.append_inj_right' h2 rfl
    simp at h3
  · have h2 : t ++ ['\n'] = (X ++ '|' :: L) ++ [b] := by simpa using ht
    have h3 := List.append_inj_right' h2 rfl
    rw [← h3]
    exact List.suffix_append _ _

/-- What `ParseMsg` returns on a line given by its first field, its second field
and the rest, which ends with the newline. -/
theorem ParseMsg_fields_data (f0 f1 R : List Char) (h0 : '|' ∉ f0) (h1 : '|' ∉ f1)
    (hR : ['\n'] <:+ R) :
    ParseMsg ⟨f0 ++ '|' :: (f1 ++ '|' :: R)⟩ =
      if dropLeadingSpace f0 = [] then some ⟨none, "", some ErrMissingCmd⟩
      else if f1 = [] then some ⟨none, "", some ErrMissingName⟩
      else some ⟨some ⟨⟨f1⟩,
          if '|' ∈ R ∨ dropTrailingSpace R = [] then []
          else strings.Split ⟨dropTrailingSpace R⟩ ','⟩, ⟨dropLeadingSpace f0⟩, none⟩ := by
  have hbar : unicode.IsSpace '|' = false := by decide
  have hA : '|' ∉ dropLeadingSpace f0 := fun h => h0 (mem_dropLeadingSpace h)
  have hwell : isWellStructured ⟨f0 ++ '|' :: (f1 ++ '|' :: R)⟩ = true := by
    have hsuf : strings.HasSuffix ⟨f0 ++ '|' :: (f1 ++ '|' :: R)⟩ msgSuffix = true := by
      obtain ⟨t, rfl⟩ := hR
      simp only [strings.HasSuffix, msgSuffix, List.isSuffixOf_iff_suffix]
      exact ⟨f0 ++ '|' :: (f1 ++ '|' :: t), by simp⟩
    have hcount : 2 ≤ strings.Count ⟨f0 ++ '|' :: (f1 ++ '|' :: R)⟩ msgDelimiter := by
      simp only [strings.Count, msgDelimiter, List.count_append, List.count_cons_self]
      omega
    have hcount2 : ¬ strings.Count ⟨f0 ++ '|' :: (f1 ++ '|' :: R)⟩ msgDelimiter
        < msgDelimitersCount := by
      simp only [msgDelimitersCount]; omega
    simp [isWellStructured, hsuf, hcount2]
  have hsplit : strings.Split (strings.TrimSpace ⟨f0 ++ '|' :: (f1 ++ '|' :: R)⟩) msgDelimiter
      = ⟨dropLeadingSpace f0⟩ :: ⟨f1⟩ :: strings.Split ⟨dropTrailingSpace R⟩ '|' := by
    rw [TrimSpace_fields]
    simp only [msgDelimiter]
    rw [Split_first _ hA, Split_first _ h1]
  have hdeps : extractDeps
      (⟨dropLeadingSpace f0⟩ :: ⟨f1⟩ :: strings.Split ⟨dropTrailingSpace R⟩ '|')
      = some (if '|' ∈ R ∨ dropTrailingSpace R = [] then []
          else strings.Split ⟨dropTrailingSpace R⟩ ',') := by
    by_cases hT : '|' ∈ R
    · have hT2 : '|' ∈ dropTrailingSpace R := (mem_dropTrailingSpace R hbar).mpr hT
      have hpos : 0 < (dropTrailingSpace R).count '|' := List.count_pos_iff.mpr hT2
      have hlen : ¬ (2 + ((dropTrailingSpace R).count '|' + 1) = 3) := by omega
      simp only [extractDeps, splitsMax, List.length_cons, length_Split, hT, true_or, if_true]
      rw [if_neg (by omega)]
    · have hT2 : '|' ∉ dropTrailingSpace R := fun h => hT ((mem_dropTrailingSpace R hbar).mp h)
      rw [Split_single hT2]
      by_cases hE : dropTrailingSpace R = []
      · simp [extractDeps, splitsMax, hT, hE]
      · have hE2 : String.mk (dropTrailingSpace R) ≠ "" := fun h => hE ((mk_eq_empty_iff _).mp h)
        simp [extractDeps, splitsMax, hT, hE, hE2, depsDelimiter]
  by_cases hc : dropLeadingSpace f0 = []
  · have hf : extractFields ⟨f0 ++ '|' :: (f1 ++ '|' :: R)⟩ = .error ErrMissingCmd := by
      simp [extractFields, hsplit, hc]
    simp [ParseMsg, hwell, hf, hc]
  · have hc2 : String.mk (dropLeadingSpace f0) ≠ "" := fun h => hc ((mk_eq_empty_iff _).mp h)
    by_cases hn : f1 = []
    · have hf : extractFields ⟨f0 ++ '|' :: (f1 ++ '|' :: R)⟩ = .error ErrMissingName := by
        simp only [extractFields, hsplit]
        simp [hc2, hn]
      simp only [ParseMsg, hwell, hf]
      simp [hc, hn]
    · have hn2 : String.mk f1 ≠ "" := fun h => hn ((mk_eq_empty_iff _).mp h)
      have hf : extractFields ⟨f0 ++ '|' :: (f1 ++ '|' :: R)⟩
          = .value (⟨dropLeadingSpace f0⟩ :: ⟨f1⟩ :: strings.Split ⟨dropTrailingSpace R⟩ '|') := by
        simp [extractFields, hsplit, hc2, hn2]
      simp [ParseMsg, hwell, hf, hc, hn, hdeps]


theorem line_data (c n rest : String) :
    c ++ "|" ++ n ++ "|" ++ rest ++ "\n"
      = ⟨c.data ++ '|' :: (n.data ++ '|' :: (rest.data ++ ['\n']))⟩ := by
  apply String.ext
  simp

/-- What `ParseMsg` returns on the line `c|n|rest` with its newline, where `c`
and `n` hold no separator. -/
theorem ParseMsg_fields (c n rest : String) (hc : '|' ∉ c.data) (hn : '|' ∉ n.data) :
    ParseMsg (c ++ "|" ++ n ++ "|" ++ rest ++ "\n") =
      if dropLeadingSpace c.data = [] then some ⟨none, "", some ErrMissingCmd⟩
      else if n = "" then some ⟨none, "", some ErrMissingName⟩
      else some ⟨some ⟨n,
          if '|' ∈ rest.data ∨ dropTrailingSpace rest.data = [] then []
          else strings.Split ⟨dropTrailingSpace rest.data⟩ ','⟩,
          ⟨dropLeadingSpace c.data⟩, none⟩ := by
  have hn0 : n.data = [] ↔ n = "" := by
    rw [← mk_eq_empty_iff]
  have hmem : '|' ∈ rest.data ++ ['\n'] ↔ '|' ∈ rest.data := by
    have : ¬ '|' = '\n' := by decide
    simp [this]
  rw [line_data, ParseMsg_fields_data _ _ _ hc hn (List.suffix_append _ _),
    dropTrailingSpace_newline]
  simp only [hn0, hmem]

theorem isWellStructured_iff (s : String) :
    isWellStructured s = true ↔ ['\n'] <:+ s.data ∧ 2 ≤ s.data.count '|' := by
  have h1 : strings.HasSuffix s msgSuffix = true ↔ ['\n'] <:+ s.data := by
    simp only [strings.HasSuffix, msgSuffix, List.isSuffixOf_iff_suffix]
  by_cases hs : strings.HasSuffix s msgSuffix = true
  · by_cases hcnt : strings.Count s msgDelimiter < msgDelimitersCount
    · have hcnt2 : ¬ 2 ≤ s.data.count '|' := by
        simpa [strings.Count, msgDelimiter, msgDelimitersCount] using hcnt
      simp [isWellStructured, hs, hcnt, hcnt2]
    · have hcnt2 : 2 ≤ s.data.count '|' := by
        simpa [strings.Count, msgDelimiter, msgDelimitersCount] using hcnt
      simp [isWellStructured, hs, hcnt, hcnt2, h1.mp hs]
  · have hs2 : ¬ ['\n'] <:+ s.data := fun h => hs (h1.mpr h)
    simp [isWellStructured, hs, hs2]

theorem ParseMsg_of_not_wellStructured {s : String} (h : ¬ isWellStructured s = true) :
    ParseMsg s = some ⟨none, "", some ErrMalformedMsg⟩ := by
  simp [ParseMsg, h]

/-- A well structured line is `c|n|rest` with its newline, `c` and `n` without
a separator. -/
theorem wellStructured_fields {s : String} (h : isWellStructured s = true) :
    ∃ c n rest : String, s = c ++ "|" ++ n ++ "|" ++ rest ++ "\n" ∧
      '|' ∉ c.data ∧ '|' ∉ n.data := by
  obtain ⟨hsuf, hcnt⟩ := (isWellStructured_iff s).mp h
  obtain ⟨f0, f1, R, hl, h0, h1⟩ := line_fields hcnt
  have hR : ['\n'] <:+ R := by
    have h2 : ['\n'] <:+ (f0 ++ '|' :: f1) ++ '|' :: R := by
      rw [hl] at hsuf; simpa using hsuf
    exact suffix_newline_fields h2
  obtain ⟨t, rfl⟩ := hR
  refine ⟨⟨f0⟩, ⟨f1⟩, ⟨t⟩, ?_, h0, h1⟩
  rw [line_data]
  exact String.ext hl

/-- Every call of `ParseMsg` returns: with an error, no package and an empty
command, or with a package, a command and no error. -/
theorem ParseMsg_cases (s : String) :
    (∃ msg, ParseMsg s = some ⟨none, "", some msg⟩ ∧
      (msg = ErrMalformedMsg ↔ ¬ isWellStructured s = true)) ∨
    (∃ pkg cmd, ParseMsg s = some ⟨some pkg, cmd, none⟩ ∧ isWellStructured s = true) := by
  by_cases hw : isWellStructured s = true
  · obtain ⟨c, n, rest, rfl, hc, hn⟩ := wellStructured_fields hw
    rw [ParseMsg_fields c n rest hc hn]
    by_cases h1 : dropLeadingSpace c.data = []
    · left
      refine ⟨ErrMissingCmd, by rw [if_pos h1], ?_⟩
      exact ⟨fun h => absurd h (by decide), fun h => absurd hw h⟩
    · by_cases h2 : n = ""
      · left
        refine ⟨ErrMissingName, by rw [if_neg h1, if_pos h2], ?_⟩
        exact ⟨fun h => absurd h (by decide), fun h => absurd hw h⟩
      · right
        exact ⟨_, _, by rw [if_neg h1, if_neg h2], hw⟩
  · left
    exact ⟨ErrMalformedMsg, ParseMsg_of_not_wellStructured hw, fun _ => hw, fun _ => rfl⟩

/-- C11: ParseMsg fails with the error "Malformed message structure" exactly
when the line does not end with a newline or holds fewer than two separators
`|`, and it then returns no package and the empty command. -/
theorem ParseMsg_malformed (s : String) :
    ((∃ r, ParseMsg s = some r ∧ r.e = some "Malformed message structure") ↔
      (¬ ['\n'] <:+ s.data ∨ s.data.count '|' < 2)) ∧
    ((¬ ['\n'] <:+ s.data ∨ s.data.count '|' < 2) →
      ParseMsg s = some ⟨none, "", some "Malformed message structure"⟩) := by
  have hiff : ¬ isWellStructured s = true ↔ (¬ ['\n'] <:+ s.data ∨ s.data.count '|' < 2) := by
    rw [isWellStructured_iff, not_and_or, Nat.not_le]
  constructor
  · rw [← hiff]
    constructor
    · rintro ⟨r, hr, he⟩
      rcases ParseMsg_cases s with ⟨msg, hp, hm⟩ | ⟨pkg, cmd, hp, _⟩
      · rw [hp] at hr
        simp only [Option.some.injEq] at hr
        subst hr
        simp only [Option.some.injEq] at he
        exact hm.mp he
      · rw [hp] at hr
        simp only [Option.some.injEq] at hr
        subst hr
        simp at he
    · intro hw
      exact ⟨_, ParseMsg_of_not_wellStructured hw, rfl⟩
  · intro h
    exact ParseMsg_of_not_wellStructured (hiff.mpr h)

/-- C12: on a line that ends with a newline and holds two separators or more,
that is `c|n|rest` with its newline where `c` and `n` hold no separator:
if `c` is empty, ParseMsg fails with "Missing command", whatever `n` is; if `c`
holds a character that is not white space and `n` is empty, ParseMsg fails
with "Missing package name". -/
theorem ParseMsg_missing_field (c n rest : String) (hc : '|' ∉ c.data)
    (hn : '|' ∉ n.data) :
    (c = "" → ParseMsg (c ++ "|" ++ n ++ "|" ++ rest ++ "\n")
      = some ⟨none, "", some "Missing command"⟩) ∧
    ((∃ ch ∈ c.data, unicode.IsSpace ch = false) → n = "" →
      ParseMsg (c ++ "|" ++ n ++ "|" ++ rest ++ "\n")
        = some ⟨none, "", some "Missing package name"⟩) := by
  rw [ParseMsg_fields c n rest hc hn]
  constructor
  · intro h
    have : dropLeadingSpace c.data = [] := by rw [h]; rfl
    rw [if_pos this]; rfl
  · intro h1 h2
    rw [if_neg (dropLeadingSpace_ne_nil.mpr h1), if_pos h2]; rfl

theorem ParseMsg_missing_field_witness :
    ParseMsg ("" ++ "|" ++ "" ++ "|" ++ "libcurl" ++ "\n")
      = some ⟨none, "", some "Missing command"⟩ ∧
    ParseMsg (" INDEX" ++ "|" ++ "" ++ "|" ++ "libcurl" ++ "\n")
      = some ⟨none, "", some "Missing package name"⟩ :=
  ⟨(ParseMsg_missing_field "" "" "libcurl" (by decide) (by decide)).1 rfl,
   (ParseMsg_missing_field " INDEX" "" "libcurl" (by decide) (by decide)).2
     ⟨'I', by decide, by decide⟩ rfl⟩


/-- C13, as stated, fails: the accepted line `INDEX|a|b|c` has the non-empty
third field `b`, whose split on commas is `[b]`, and ParseMsg returns no
dependency; the accepted line `INDEX|a|b ` with a blank before the newline has
the third field `b `, and ParseMsg returns the dependency `b` without the
blank. -/
theorem ParseMsg_deps_counterexample :
    ParseMsg "INDEX|a|b|c\n" = some ⟨some ⟨"a", []⟩, "INDEX", none⟩ ∧
    strings.Split "b" ',' = ["b"] ∧
    ParseMsg "INDEX|a|b \n" = some ⟨some ⟨"a", ["b"]⟩, "INDEX", none⟩ ∧
    strings.Split "b " ',' = ["b "] := by
  decide

/-- C13, amended: on an accepted line `c|n|rest` with its newline, where `c`
and `n` hold no separator, the dependency list is the text `rest` without its
trailing white space, split on commas in the given order, hence not empty,
when `rest` holds no separator `|` and is not all white space; it is empty
when `rest` holds a separator or is empty or all white space. -/
theorem ParseMsg_deps (c n rest : String) (pkg : Pkg) (cmd : String)
    (hc : '|' ∉ c.data) (hn : '|' ∉ n.data)
    (hacc : ParseMsg (c ++ "|" ++ n ++ "|" ++ rest ++ "\n") = some ⟨some pkg, cmd, none⟩) :
    (('|' ∉ rest.data ∧ dropTrailingSpace rest.data ≠ []) →
      pkg.Deps = strings.Split ⟨dropTrailingSpace rest.data⟩ ',' ∧ pkg.Deps ≠ []) ∧
    (('|' ∈ rest.data ∨ dropTrailingSpace rest.data = []) → pkg.Deps = []) := by
  rw [ParseMsg_fields c n rest hc hn] at hacc
  by_cases h1 : dropLeadingSpace c.data = []
  · rw [if_pos h1] at hacc
    simp at hacc
  · rw [if_neg h1] at hacc
    by_cases h2 : n = ""
    · rw [if_pos h2] at hacc
      simp at hacc
    · rw [if_neg h2] at hacc
      simp only [Option.some.injEq, Parsed.mk.injEq, and_true] at hacc
      obtain ⟨hpkg, _⟩ := hacc
      subst hpkg
      constructor
      · rintro ⟨h3, h4⟩
        have hcond : ¬ ('|' ∈ rest.data ∨ dropTrailingSpace rest.data = []) := by
          rintro (h | h)
          · exact h3 h
          · exact h4 h
        simp only [if_neg hcond, true_and]
        intro hnil
        have hlen := length_Split ⟨dropTrailingSpace rest.data⟩ ','
        rw [hnil] at hlen
        simp at hlen
      · intro h
        simp only [if_pos h]

theorem ParseMsg_deps_witness :
    (Pkg.mk "nginx" ["pcre", "zlib"]).Deps = strings.Split ⟨dropTrailingSpace "pcre,zlib \t".data⟩ ','
      ∧ (Pkg.mk "nginx" ["pcre", "zlib"]).Deps ≠ [] :=
  (ParseMsg_deps "INDEX" "nginx" "pcre,zlib \t" ⟨"nginx", ["pcre", "zlib"]⟩ "INDEX"
    (by decide) (by decide) (by decide)).1 ⟨by decide, by decide⟩

/-- C14, as stated, fails: the line ` INDEX|a|` with its newline ends with a
newline, has two separators and the non-empty fields ` INDEX` and `a`, and
ParseMsg returns the command `INDEX`, without the blank; the line ` |a|` with
the non-empty first field ` ` is rejected. -/
theorem ParseMsg_command_counterexample :
    ParseMsg " INDEX|a|\n" = some ⟨some ⟨"a", []⟩, "INDEX", none⟩ ∧
    "INDEX" ≠ " INDEX" ∧
    ParseMsg " |a|\n" = some ⟨none, "", some "Missing command"⟩ := by
  decide

/-- C14, amended: ParseMsg splits the line after trimming the white space at
both ends of it.  On the line `c|n|rest` with its newline, where `c` and `n`
hold no separator, `c` holds a character that is not white space and `n` is
not empty, ParseMsg succeeds and returns as command `c` without its leading
white space, which is `c` itself when `c` does not start with white space, and
as package name exactly `n`. -/
theorem ParseMsg_command_name (c n rest : String) (hc : '|' ∉ c.data) (hn : '|' ∉ n.data)
    (hc2 : ∃ ch ∈ c.data, unicode.IsSpace ch = false) (hn2 : n ≠ "") :
    (∃ deps, ParseMsg (c ++ "|" ++ n ++ "|" ++ rest ++ "\n")
      = some ⟨some ⟨n, deps⟩, ⟨dropLeadingSpace c.data⟩, none⟩) ∧
    ((∀ ch, c.data.head? = some ch → unicode.IsSpace ch = false) →
      String.mk (dropLeadingSpace c.data) = c) := by
  constructor
  · rw [ParseMsg_fields c n rest hc hn, if_neg (dropLeadingSpace_ne_nil.mpr hc2), if_neg hn2]
    exact ⟨_, rfl⟩
  · intro hhead
    apply String.ext
    show dropLeadingSpace c.data = c.data
    cases hcd : c.data with
    | nil => rfl
    | cons x l =>
      have hx : unicode.IsSpace x = false := hhead x (by rw [hcd]; rfl)
      simp [dropLeadingSpace, List.dropWhile, hx]

theorem ParseMsg_command_name_witness :
    (∃ deps, ParseMsg (" \tFROB" ++ "|" ++ "a b" ++ "|" ++ "x|y" ++ "\n")
      = some ⟨some ⟨"a b", deps⟩, ⟨dropLeadingSpace " \tFROB".data⟩, none⟩) ∧
    String.mk (dropLeadingSpace " \tFROB".data) = "FROB" :=
  ⟨(ParseMsg_command_name " \tFROB" "a b" "x|y" (by decide) (by decide)
      ⟨'F', by decide, by decide⟩ (by decide)).1, by decide⟩

/-! ## The claims on the server -/

theorem Index_status_cases (i : InMemoryIndexer) (p : Pkg) :
    (Index i p).1 = OK ∨ (Index i p).1 = Fail := by
  rcases Index_cases i p with ⟨_, h⟩ | ⟨_, _, h⟩ | ⟨_, _, h⟩ <;> rw [h] <;> simp

theorem Remove_status_cases (i : InMemoryIndexer) (name : String) :
    (Remove i name).1 = OK ∨ (Remove i name).1 = Fail := by
  rcases Remove_cases i name with ⟨_, h⟩ | ⟨_, _, h⟩ | ⟨_, _, h⟩ <;> rw [h] <;> simp

theorem Query_status_cases (i : InMemoryIndexer) (name : String) :
    (Query i name).1 = OK ∨ (Query i name).1 = Fail := by
  unfold Query; split <;> simp

theorem OK_ne_Error : OK ≠ Error := by decide

theorem Fail_ne_Error : Fail ≠ Error := by decide

theorem process_of_error {s : TCPServer} {line msg : String}
    (h : ParseMsg line = some ⟨none, "", some msg⟩) :
    process s line = sendErr s msg (fun t => .returns (Error, t)) := by
  simp [process, h]

theorem process_of_parsed {s : TCPServer} {line cmd : String} {pkg : Pkg}
    (h : ParseMsg line = some ⟨some pkg, cmd, none⟩) :
    process s line =
      if cmd = "INDEX" then reply s (Index s.i pkg)
      else if cmd = "REMOVE" then reply s (Remove s.i pkg.Name)
      else if cmd = "QUERY" then reply s (Query s.i pkg.Name)
      else .returns (Error, s) := by
  simp [process, h]

theorem reply_status {s : TCPServer} {r : String × InMemoryIndexer} {res : String}
    {t : TCPServer} (h : reply s r = .returns (res, t)) : res = r.1 := by
  simp only [reply, Run.returns.injEq, Prod.mk.injEq] at h
  exact h.1.symm

/-- C15, as stated, fails: the line `QUERY|ceylon` with its newline has one
separator, so ParseMsg fails on it; on a server whose error channel nothing
receives from, as a server made by NewTCPServer and not started, process
waits on the send of the parse error and returns no response. -/
theorem process_dispatch_counterexample :
    ParseMsg "QUERY|ceylon\n" = some ⟨none, "", some "Malformed message structure"⟩ ∧
    process ⟨NewInMemoryIndexer, ⟨.idle, []⟩⟩ "QUERY|ceylon\n" = .blocks ∧
    ¬ ∃ res t, process ⟨NewInMemoryIndexer, ⟨.idle, []⟩⟩ "QUERY|ceylon\n"
      = .returns (res, t) := by
  have hb : process ⟨NewInMemoryIndexer, ⟨.idle, []⟩⟩ "QUERY|ceylon\n" = .blocks := by decide
  refine ⟨by decide, hb, ?_⟩
  rintro ⟨res, t, h⟩
  rw [hb] at h
  exact Run.noConfusion h

/-- C15, amended: a call of process that returns returns one of the lines OK,
FAIL and ERROR, and ERROR exactly when ParseMsg fails or the decoded command
is none of INDEX, REMOVE and QUERY.  On a decoded line the call always
returns: what Index of the package returns for INDEX, what Remove of its name
returns for REMOVE, what Query of its name returns for QUERY, and ERROR with
the server unchanged for another command.  When ParseMsg fails, process sends
the error on the error channel first: it returns ERROR, the registry unchanged
and the error received, when a goroutine receives from the channel; it never
returns when none does; it panics when the channel is closed. -/
theorem process_dispatch (s : TCPServer) (line : String) :
    (∀ res t, process s line = .returns (res, t) →
      (res = "OK\n" ∨ res = "FAIL\n" ∨ res = "ERROR\n") ∧
      (res = "ERROR\n" ↔
        ((∃ r msg, ParseMsg line = some r ∧ r.e = some msg) ∨
          (∃ pkg cmd, ParseMsg line = some ⟨some pkg, cmd, none⟩ ∧
            cmd ≠ "INDEX" ∧ cmd ≠ "REMOVE" ∧ cmd ≠ "QUERY")))) ∧
    (∀ pkg cmd, ParseMsg line = some ⟨some pkg, cmd, none⟩ →
      (cmd = "INDEX" →
        process s line = .returns ((Index s.i pkg).1, { s with i := (Index s.i pkg).2 })) ∧
      (cmd = "REMOVE" →
        process s line
          = .returns ((Remove s.i pkg.Name).1, { s with i := (Remove s.i pkg.Name).2 })) ∧
      (cmd = "QUERY" →
        process s line
          = .returns ((Query s.i pkg.Name).1, { s with i := (Query s.i pkg.Name).2 })) ∧
      (cmd ≠ "INDEX" → cmd ≠ "REMOVE" → cmd ≠ "QUERY" →
        process s line = .returns ("ERROR\n", s))) ∧
    (∀ r msg, ParseMsg line = some r → r.e = some msg →
      (s.err.status = .receiving →
        process s line = .returns ("ERROR\n",
          { s with err := { s.err with received := s.err.received ++ [msg] } })) ∧
      (s.err.status = .idle → process s line = .blocks) ∧
      (s.err.status = .closed → process s line = .panics)) ∧
    (s.err.status = .receiving → ∃ res t, process s line = .returns (res, t)) := by
  have hOK : OK = "OK\n" := rfl
  have hFail : Fail = "FAIL\n" := rfl
  have hError : Error = "ERROR\n" := rfl
  have hdispatch : ∀ pkg cmd, ParseMsg line = some ⟨some pkg, cmd, none⟩ →
      (cmd = "INDEX" →
        process s line = .returns ((Index s.i pkg).1, { s with i := (Index s.i pkg).2 })) ∧
      (cmd = "REMOVE" →
        process s line
          = .returns ((Remove s.i pkg.Name).1, { s with i := (Remove s.i pkg.Name).2 })) ∧
      (cmd = "QUERY" →
        process s line
          = .returns ((Query s.i pkg.Name).1, { s with i := (Query s.i pkg.Name).2 })) ∧
      (cmd ≠ "INDEX" → cmd ≠ "REMOVE" → cmd ≠ "QUERY" →
        process s line = .returns ("ERROR\n", s)) := by
    intro pkg cmd hp
    rw [process_of_parsed hp]
    refine ⟨fun h => ?_, fun h => ?_, fun h => ?_, fun h1 h2 h3 => ?_⟩
    · rw [if_pos h]; rfl
    · subst h; rw [if_neg (by decide), if_pos rfl]; rfl
    · subst h; rw [if_neg (by decide), if_neg (by decide), if_pos rfl]; rfl
    · rw [if_neg h1, if_neg h2, if_neg h3]; rfl
  have hfailure : ∀ r msg, ParseMsg line = some r → r.e = some msg →
      (s.err.status = .receiving →
        process s line = .returns ("ERROR\n",
          { s with err := { s.err with received := s.err.received ++ [msg] } })) ∧
      (s.err.status = .idle → process s line = .blocks) ∧
      (s.err.status = .closed → process s line = .panics) := by
    intro r msg hr he
    rcases ParseMsg_cases line with ⟨msg', hp, _⟩ | ⟨pkg, cmd, hp, _⟩
    · rw [hp] at hr
      simp only [Option.some.injEq] at hr
      subst hr
      simp only [Option.some.injEq] at he
      subst he
      rw [process_of_error hp]
      refine ⟨fun h => ?_, fun h => ?_, fun h => ?_⟩ <;> simp only [sendErr, h]
      rfl
    · rw [hp] at hr
      simp only [Option.some.injEq] at hr
      subst hr
      simp at he
  refine ⟨?_, hdispatch, hfailure, ?_⟩
  · intro res t hret
    rcases ParseMsg_cases line with ⟨msg, hp, _⟩ | ⟨pkg, cmd, hp, _⟩
    · have hf := hfailure _ msg hp rfl
      have hres : res = "ERROR\n" := by
        cases hst : s.err.status with
        | receiving =>
          rw [hf.1 hst] at hret
          simp only [Run.returns.injEq, Prod.mk.injEq] at hret
          exact hret.1.symm
        | idle => rw [hf.2.1 hst] at hret; exact Run.noConfusion hret
        | closed => rw [hf.2.2 hst] at hret; exact Run.noConfusion hret
      refine ⟨Or.inr (Or.inr hres), fun _ => Or.inl ⟨_, msg, hp, rfl⟩, fun _ => hres⟩
    · have hd := hdispatch pkg cmd hp
      have hnoerr : ¬ ∃ r msg, ParseMsg line = some r ∧ r.e = some msg := by
        rintro ⟨r, msg, hr, he⟩
        rw [hp] at hr
        simp only [Option.some.injEq] at hr
        subst hr
        simp at he
      have hsame : ∀ pkg' cmd', ParseMsg line = some ⟨some pkg', cmd', none⟩ → cmd' = cmd := by
        intro pkg' cmd' h'
        rw [hp] at h'
        simp only [Option.some.injEq, Parsed.mk.injEq] at h'
        exact h'.2.1.symm
      have hknown : ∀ st : String, (st = OK ∨ st = Fail) → res = st →
          (cmd = "INDEX" ∨ cmd = "REMOVE" ∨ cmd = "QUERY") →
          (res = "OK\n" ∨ res = "FAIL\n" ∨ res = "ERROR\n") ∧
          (res = "ERROR\n" ↔
            ((∃ r msg, ParseMsg line = some r ∧ r.e = some msg) ∨
              (∃ pkg cmd, ParseMsg line = some ⟨some pkg, cmd, none⟩ ∧
                cmd ≠ "INDEX" ∧ cmd ≠ "REMOVE" ∧ cmd ≠ "QUERY"))) := by
        intro st hst hres hcmd
        subst hres
        have hne : res ≠ "ERROR\n" := by
          rcases hst with h | h
          · rw [h]; exact OK_ne_Error
          · rw [h]; exact Fail_ne_Error
        refine ⟨?_, fun h => absurd h hne, ?_⟩
        · rcases hst with h | h
          · exact Or.inl (h.trans hOK)
          · exact Or.inr (Or.inl (h.trans hFail))
        · rintro (h | ⟨pkg', cmd', h', h1, h2, h3⟩)
          · exact absurd h hnoerr
          · rw [hsame pkg' cmd' h'] at h1 h2 h3
            rcases hcmd with h | h | h
            · exact absurd h h1
            · exact absurd h h2
            · exact absurd h h3
      by_cases h1 : cmd = "INDEX"
      · rw [hd.1 h1] at hret
        simp only [Run.returns.injEq, Prod.mk.injEq] at hret
        exact hknown _ (Index_status_cases s.i pkg) hret.1.symm (Or.inl h1)
      · by_cases h2 : cmd = "REMOVE"
        · rw [hd.2.1 h2] at hret
          simp only [Run.returns.injEq, Prod.mk.injEq] at hret
          exact hknown _ (Remove_status_cases s.i pkg.Name) hret.1.symm (Or.inr (Or.inl h2))
        · by_cases h3 : cmd = "QUERY"
          · rw [hd.2.2.1 h3] at hret
            simp only [Run.returns.injEq, Prod.mk.injEq] at hret
            exact hknown _ (Query_status_cases s.i pkg.Name) hret.1.symm (Or.inr (Or.inr h3))
          · rw [hd.2.2.2 h1 h2 h3] at hret
            simp only [Run.returns.injEq, Prod.mk.injEq] at hret
            have hres : res = "ERROR\n" := hret.1.symm
            exact ⟨Or.inr (Or.inr hres),
              fun _ => Or.inr ⟨pkg, cmd, hp, h1, h2, h3⟩, fun _ => hres⟩
  · intro hst
    rcases ParseMsg_cases line with ⟨msg, hp, _⟩ | ⟨pkg, cmd, hp, _⟩
    · exact ⟨_, _, (hfailure _ msg hp rfl).1 hst⟩
    · have hd := hdispatch pkg cmd hp
      by_cases h1 : cmd = "INDEX"
      · exact ⟨_, _, hd.1 h1⟩
      · by_cases h2 : cmd = "REMOVE"
        · exact ⟨_, _, hd.2.1 h2⟩
        · by_cases h3 : cmd = "QUERY"
          · exact ⟨_, _, hd.2.2.1 h3⟩
          · exact ⟨_, _, hd.2.2.2 h1 h2 h3⟩

theorem process_dispatch_witness :
    process ⟨NewInMemoryIndexer, ⟨.receiving, []⟩⟩ "|ccng|libcurl\n"
      = .returns ("ERROR\n", ⟨NewInMemoryIndexer, ⟨.receiving, ["Missing command"]⟩⟩) ∧
    process ⟨NewInMemoryIndexer, ⟨.idle, []⟩⟩ "UNKNOWN|ccng|libcurl\n"
      = .returns ("ERROR\n", ⟨NewInMemoryIndexer, ⟨.idle, []⟩⟩) :=
  ⟨((process_dispatch ⟨NewInMemoryIndexer, ⟨.receiving, []⟩⟩ "|ccng|libcurl\n").2.2.1
      ⟨none, "", some "Missing command"⟩ "Missing command" (by decide) rfl).1 rfl,
   ((process_dispatch ⟨NewInMemoryIndexer, ⟨.idle, []⟩⟩ "UNKNOWN|ccng|libcurl\n").2.1
      ⟨"ccng", ["libcurl"]⟩ "UNKNOWN" (by decide)).2.2.2
      (by decide) (by decide) (by decide)⟩

theorem dropTrailingSpace_of_all_false {l : List Char}
    (h : ∀ x ∈ l, unicode.IsSpace x = false) : dropTrailingSpace l = l := by
  have hrev : ∀ x ∈ l.reverse, unicode.IsSpace x = false :=
    fun x hx => h x (List.mem_reverse.mp hx)
  simp [dropTrailingSpace, dropWhile_of_all_false hrev]

/-- The line of a request: tokens `c` and `n`, then a text `rest` without
white space or separator `|`. -/
theorem ParseMsg_request (c n rest : String) (hc : isToken c = true) (hn : isToken n = true)
    (hrest : ∀ ch ∈ rest.data, unicode.IsSpace ch = false ∧ ch ≠ '|')
    (line : String)
    (hline : line.data = c.data ++ '|' :: (n.data ++ '|' :: (rest.data ++ ['\n']))) :
    ParseMsg line = some ⟨some ⟨n, if rest.data = [] then [] else strings.Split rest ','⟩,
      c, none⟩ := by
  obtain ⟨hc0, hc1⟩ := (isToken_iff c).mp hc
  obtain ⟨hn0, hn1⟩ := (isToken_iff n).mp hn
  have heq : line = c ++ "|" ++ n ++ "|" ++ rest ++ "\n" := by
    rw [line_data]; exact String.ext hline
  have hcl : dropLeadingSpace c.data = c.data :=
    dropWhile_of_all_false fun x hx => (hc1 x hx).1
  have hrt : dropTrailingSpace rest.data = rest.data :=
    dropTrailingSpace_of_all_false fun x hx => (hrest x hx).1
  have hbar : '|' ∉ rest.data := fun h => (hrest '|' h).2 rfl
  have hnne : n ≠ "" := fun h => hn0 (congrArg String.data h)
  rw [heq, ParseMsg_fields c n rest (fun h => (hc1 '|' h).2.1 rfl)
    (fun h => (hn1 '|' h).2.1 rfl), hcl, hrt, if_neg hc0, if_neg hnne]
  simp [hbar]

/-- C16: for distinct tokens `a` and `b`, the lines `INDEX|a|`, `INDEX|b|a`,
`REMOVE|a|`, `REMOVE|b|` and `REMOVE|a|`, each with its newline, processed in
this order by a server with a new registry, get the responses OK, OK, FAIL, OK
and OK, and the registry is empty at the end; this holds whatever the error
channel does with a send, since no line fails to parse, and the channel is
left as it was. -/
theorem end_to_end_scenario (a b : String) (ha : isToken a = true) (hb : isToken b = true)
    (hab : a ≠ b) (err : ErrChan) :
    processAll ⟨NewInMemoryIndexer, err⟩
      ["INDEX|" ++ a ++ "|\n", "INDEX|" ++ b ++ "|" ++ a ++ "\n", "REMOVE|" ++ a ++ "|\n",
        "REMOVE|" ++ b ++ "|\n", "REMOVE|" ++ a ++ "|\n"]
      = .returns (["OK\n", "OK\n", "FAIL\n", "OK\n", "OK\n"], ⟨{ registry := [] }, err⟩) := by
  have hba : b ≠ a := fun h => hab h.symm
  obtain ⟨ha0, ha1⟩ := (isToken_iff a).mp ha
  have hnone : ∀ ch ∈ "".data, unicode.IsSpace ch = false ∧ ch ≠ '|' := by simp
  have hone : ∀ ch ∈ a.data, unicode.IsSpace ch = false ∧ ch ≠ '|' :=
    fun ch h => ⟨(ha1 ch h).1, (ha1 ch h).2.1⟩
  have hsplit : strings.Split a ',' = [a] :=
    Split_single (T := a.data) fun h => (ha1 ',' h).2.2 rfl
  have p1 : ParseMsg ("INDEX|" ++ a ++ "|\n") = some ⟨some ⟨a, []⟩, "INDEX", none⟩ :=
    ParseMsg_request "INDEX" a "" (by decide) ha hnone _ (by simp)
  have p2 : ParseMsg ("INDEX|" ++ b ++ "|" ++ a ++ "\n")
      = some ⟨some ⟨b, [a]⟩, "INDEX", none⟩ := by
    rw [ParseMsg_request "INDEX" b a (by decide) hb hone _ (by simp), if_neg ha0, hsplit]
  have p3 : ParseMsg ("REMOVE|" ++ a ++ "|\n") = some ⟨some ⟨a, []⟩, "REMOVE", none⟩ :=
    ParseMsg_request "REMOVE" a "" (by decide) ha hnone _ (by simp)
  have p4 : ParseMsg ("REMOVE|" ++ b ++ "|\n") = some ⟨some ⟨b, []⟩, "REMOVE", none⟩ :=
    ParseMsg_request "REMOVE" b "" (by decide) hb hnone _ (by simp)
  have i1 : Index NewInMemoryIndexer ⟨a, []⟩ = ("OK\n", ⟨[(a, ⟨a, []⟩)]⟩) := by
    simp [Index, NewInMemoryIndexer, mapExist, mapGet, canIndex, canIndexLoop, mapSet,
      mapDelete, OK]
  have i2 : Index ⟨[(a, ⟨a, []⟩)]⟩ ⟨b, [a]⟩
      = ("OK\n", ⟨[(b, ⟨b, [a]⟩), (a, ⟨a, []⟩)]⟩) := by
    simp [Index, mapExist, mapGet, canIndex, canIndexLoop, mapSet, mapDelete, OK, hab]
  have r3 : Remove ⟨[(b, ⟨b, [a]⟩), (a, ⟨a, []⟩)]⟩ a
      = ("FAIL\n", ⟨[(b, ⟨b, [a]⟩), (a, ⟨a, []⟩)]⟩) := by
    simp [Remove, mapExist, mapGet, canRemove, canRemoveLoop, canRemoveInner, Fail, hba]
  have r4 : Remove ⟨[(b, ⟨b, [a]⟩), (a, ⟨a, []⟩)]⟩ b = ("OK\n", ⟨[(a, ⟨a, []⟩)]⟩) := by
    simp [Remove, mapExist, mapGet, canRemove, canRemoveLoop, canRemoveInner, mapDelete, OK,
      hab]
  have r5 : Remove ⟨[(a, ⟨a, []⟩)]⟩ a = ("OK\n", ⟨[]⟩) := by
    simp [Remove, mapExist, mapGet, canRemove, canRemoveLoop, canRemoveInner, mapDelete, OK]
  have q1 : process ⟨NewInMemoryIndexer, err⟩ ("INDEX|" ++ a ++ "|\n")
      = .returns ("OK\n", ⟨⟨[(a, ⟨a, []⟩)]⟩, err⟩) := by
    rw [process_of_parsed p1, if_pos rfl]
    show reply _ (Index NewInMemoryIndexer ⟨a, []⟩) = _
    rw [i1]; rfl
  have q2 : process ⟨⟨[(a, ⟨a, []⟩)]⟩, err⟩ ("INDEX|" ++ b ++ "|" ++ a ++ "\n")
      = .returns ("OK\n", ⟨⟨[(b, ⟨b, [a]⟩), (a, ⟨a, []⟩)]⟩, err⟩) := by
    rw [process_of_parsed p2, if_pos rfl]
    show reply _ (Index ⟨[(a, ⟨a, []⟩)]⟩ ⟨b, [a]⟩) = _
    rw [i2]; rfl
  have q3 : process ⟨⟨[(b, ⟨b, [a]⟩), (a, ⟨a, []⟩)]⟩, err⟩ ("REMOVE|" ++ a ++ "|\n")
      = .returns ("FAIL\n", ⟨⟨[(b, ⟨b, [a]⟩), (a, ⟨a, []⟩)]⟩, err⟩) := by
    rw [process_of_parsed p3, if_neg (by decide), if_pos rfl]
    show reply _ (Remove ⟨[(b, ⟨b, [a]⟩), (a, ⟨a, []⟩)]⟩ a) = _
    rw [r3]; rfl
  have q4 : process ⟨⟨[(b, ⟨b, [a]⟩), (a, ⟨a, []⟩)]⟩, err⟩ ("REMOVE|" ++ b ++ "|\n")
      = .returns ("OK\n", ⟨⟨[(a, ⟨a, []⟩)]⟩, err⟩) := by
    rw [process_of_parsed p4, if_neg (by decide), if_pos rfl]
    show reply _ (Remove ⟨[(b, ⟨b, [a]⟩), (a, ⟨a, []⟩)]⟩ b) = _
    rw [r4]; rfl
  have q5 : process ⟨⟨[(a, ⟨a, []⟩)]⟩, err⟩ ("REMOVE|" ++ a ++ "|\n")
      = .returns ("OK\n", ⟨⟨[]⟩, err⟩) := by
    rw [process_of_parsed p3, if_neg (by decide), if_pos rfl]
    show reply _ (Remove ⟨[(a, ⟨a, []⟩)]⟩ a) = _
    rw [r5]; rfl
  simp only [processAll, q1, q2, q3, q4, q5]

theorem end_to_end_scenario_witness :
    processAll ⟨NewInMemoryIndexer, ⟨.idle, []⟩⟩
      ["INDEX|" ++ "a" ++ "|\n", "INDEX|" ++ "b" ++ "|" ++ "a" ++ "\n",
        "REMOVE|" ++ "a" ++ "|\n", "REMOVE|" ++ "b" ++ "|\n", "REMOVE|" ++ "a" ++ "|\n"]
      = .returns (["OK\n", "OK\n", "FAIL\n", "OK\n", "OK\n"],
          ⟨{ registry := [] }, ⟨.idle, []⟩⟩) :=
  end_to_end_scenario "a" "b" (by decide) (by decide) (by decide) ⟨.idle, []⟩

/-! ## Removal protection and batches of `Index` calls -/

/-- C17: on a registry with unique keys where the package P is registered under
its name, A is registered and P lists A: Remove of A returns Fail and A stays
registered; and if P is the only registered package that lists A and Remove of
P returns OK, then Remove of A returns OK afterwards and A is not registered
any more. -/
theorem removal_protection (i : InMemoryIndexer) (P : Pkg) (A : String)
    (hwf : WF i.registry) (hP : mapGet i.registry P.Name = some P)
    (hA : mapExist i.registry A = true) (hdep : A ∈ P.Deps) :
    (Remove i A).1 = Fail ∧
    mapExist (Remove i A).2.registry A = true ∧
    ((∀ k q, mapGet i.registry k = some q → A ∈ q.Deps → k = P.Name) →
      (Remove i P.Name).1 = OK →
      (Remove (Remove i P.Name).2 A).1 = OK ∧
      mapExist (Remove (Remove i P.Name).2 A).2.registry A = false) := by
  have hPmem : (P.Name, P) ∈ i.registry := mapGet_some_mem hP
  have hfail : Remove i A = (Fail, i) := Remove_of_listed hA hPmem hdep
  refine ⟨by rw [hfail], by rw [hfail]; exact hA, ?_⟩
  intro honly hok
  have hPex : mapExist i.registry P.Name = true := (mapExist_iff_get _ _).mpr ⟨P, hP⟩
  rcases Remove_cases i P.Name with ⟨h1, _⟩ | ⟨_, hfree, h3⟩ | ⟨_, _, h3⟩
  · rw [hPex] at h1; exact Bool.noConfusion h1
  · have hne : A ≠ P.Name := by
      intro h
      exact hfree (P.Name, P) hPmem (h ▸ hdep)
    rw [h3]
    have hAex : mapExist (mapDelete i.registry P.Name) A = true := by
      rw [mapExist, mapGet_mapDelete, if_neg hne]
      exact hA
    have hAfree : ∀ e ∈ mapDelete i.registry P.Name, A ∉ e.2.Deps := by
      intro e he hl
      have he2 := List.mem_filter.mp he
      have hkey : e.1 ≠ P.Name := by simpa using he2.2
      exact hkey (honly e.1 e.2 (mapGet_of_mem_WF hwf he2.1) hl)
    have hrem := Remove_of_free (i := ⟨mapDelete i.registry P.Name⟩) hAex hAfree
    rw [hrem]
    exact ⟨rfl, by simp [mapExist, mapGet_mapDelete]⟩
  · rw [h3] at hok; exact absurd hok.symm OK_ne_Fail

theorem removal_protection_witness :
    (Remove ⟨[("mysql", ⟨"mysql", ["core"]⟩), ("core", ⟨"core", []⟩)]⟩ "core").1 = Fail ∧
    mapExist (Remove ⟨[("mysql", ⟨"mysql", ["core"]⟩), ("core", ⟨"core", []⟩)]⟩
      "core").2.registry "core" = true ∧
    (Remove (Remove ⟨[("mysql", ⟨"mysql", ["core"]⟩), ("core", ⟨"core", []⟩)]⟩
      "mysql").2 "core").1 = OK ∧
    mapExist (Remove (Remove ⟨[("mysql", ⟨"mysql", ["core"]⟩), ("core", ⟨"core", []⟩)]⟩
      "mysql").2 "core").2.registry "core" = false :=
  have h := removal_protection ⟨[("mysql", ⟨"mysql", ["core"]⟩), ("core", ⟨"core", []⟩)]⟩
    ⟨"mysql", ["core"]⟩ "core" (by decide) (by decide) (by decide) (by decide)
  ⟨h.1, h.2.1,
    h.2.2
      (by
        intro k q hq hl
        by_cases hk : k = "mysql"
        · exact hk
        · by_cases hk2 : k = "core"
          · subst hk2
            have : q = ⟨"core", []⟩ := by
              have h2 : mapGet [("mysql", ⟨"mysql", ["core"]⟩), ("core", ⟨"core", []⟩)] "core"
                  = some ⟨"core", []⟩ := by decide
              rw [h2] at hq
              exact (Option.some.inj hq).symm
            subst this
            simp at hl
          · have hk' : ¬ "mysql" = k := fun h => hk h.symm
            have hk2' : ¬ "core" = k := fun h => hk2 h.symm
            simp [mapGet, hk', hk2'] at hq)
      (by decide)⟩

theorem dedup_filter_cons_of_false {q : String → Bool} {a : String} (L : List String)
    (ha : q a = false) :
    ((a :: L).dedup.filter q).length = (L.dedup.filter q).length := by
  by_cases hmem : a ∈ L
  · rw [List.dedup_cons_of_mem hmem]
  · rw [List.dedup_cons_of_not_mem hmem, List.filter_cons]
    simp [ha]

theorem filter_and_ne_of_not_mem {q : String → Bool} {a : String} {M : List String}
    (h : a ∉ M) : M.filter (fun n => q n && decide (n ≠ a)) = M.filter q := by
  apply List.filter_congr
  intro x hx
  have : x ≠ a := fun hxa => h (hxa ▸ hx)
  simp [this]

theorem nodup_filter_split {q : String → Bool} {a : String} {M : List String}
    (hnd : M.Nodup) (hmem : a ∈ M) (ha : q a = true) :
    (M.filter q).length = 1 + (M.filter (fun n => q n && decide (n ≠ a))).length := by
  induction M with
  | nil => simp at hmem
  | cons x M ih =>
    obtain ⟨hx, hnd'⟩ := List.nodup_cons.mp hnd
    by_cases hxa : x = a
    · subst hxa
      rw [List.filter_cons, List.filter_cons, filter_and_ne_of_not_mem hx]
      simp [ha, Nat.add_comm]
    · have hmem' : a ∈ M := by
        rcases List.mem_cons.mp hmem with h | h
        · exact absurd h.symm hxa
        · exact h
      have ih' := ih hnd' hmem'
      rw [List.filter_cons, List.filter_cons]
      by_cases hq : q x = true
      · simp [hq, hxa, ih']; omega
      · simp [hq, ih']

theorem dedup_filter_cons_of_true {q : String → Bool} {a : String} (L : List String)
    (ha : q a = true) :
    ((a :: L).dedup.filter q).length
      = 1 + (L.dedup.filter (fun n => q n && decide (n ≠ a))).length := by
  by_cases hmem : a ∈ L
  · rw [List.dedup_cons_of_mem hmem]
    exact nodup_filter_split (List.nodup_dedup L) (List.mem_dedup.mpr hmem) ha
  · have hmem' : a ∉ L.dedup := fun h => hmem (List.mem_dedup.mp h)
    rw [List.dedup_cons_of_not_mem hmem, List.filter_cons, filter_and_ne_of_not_mem hmem']
    simp [ha, Nat.add_comm]

theorem indexAll_spec (l : List Pkg) (i : InMemoryIndexer)
    (h : ∀ p ∈ l, ∀ d ∈ p.Deps, mapExist i.registry d = true) :
    (∀ st ∈ (indexAll i l).1, st = OK) ∧ (indexAll i l).1.length = l.length ∧
    count (indexAll i l).2 = count i +
      ((l.map Pkg.Name).dedup.filter (fun n => !mapExist i.registry n)).length := by
  induction l generalizing i with
  | nil => simp [indexAll]
  | cons p ps ih =>
    have hp := h p (List.mem_cons_self _ _)
    have hps : ∀ q ∈ ps, ∀ d ∈ q.Deps, mapExist i.registry d = true :=
      fun q hq => h q (List.mem_cons_of_mem _ hq)
    by_cases hn : mapExist i.registry p.Name = true
    · have hidx : Index i p = (OK, i) := Index_of_exist hn
      obtain ⟨ih1, ih2, ih3⟩ := ih i hps
      simp only [indexAll, hidx, List.map_cons]
      refine ⟨?_, by simp [ih2], ?_⟩
      · intro st hst
        rcases List.mem_cons.mp hst with h' | h'
        · exact h'
        · exact ih1 st h'
      · rw [ih3, dedup_filter_cons_of_false _ (by simp [hn])]
    · have hn2 : mapExist i.registry p.Name = false := by simpa using hn
      have hidx := Index_of_new hn2 hp
      have hsup : ∀ d, mapExist ((p.Name, p) :: i.registry) d
          = (decide (p.Name = d) || mapExist i.registry d) := by
        intro d
        by_cases hd : p.Name = d <;> simp [mapExist, mapGet, hd]
      have hps' : ∀ q ∈ ps, ∀ d ∈ q.Deps,
          mapExist (InMemoryIndexer.mk ((p.Name, p) :: i.registry)).registry d = true := by
        intro q hq d hd
        show mapExist ((p.Name, p) :: i.registry) d = true
        rw [hsup, hps q hq d hd]
        simp
      obtain ⟨ih1, ih2, ih3⟩ := ih ⟨(p.Name, p) :: i.registry⟩ hps'
      simp only [indexAll, hidx, List.map_cons]
      refine ⟨?_, by simp [ih2], ?_⟩
      · intro st hst
        rcases List.mem_cons.mp hst with h' | h'
        · exact h'
        · exact ih1 st h'
      · rw [ih3, dedup_filter_cons_of_true _ (by simp [hn2])]
        have hfun : (fun n => !mapExist (InMemoryIndexer.mk ((p.Name, p) :: i.registry)).registry n)
            = (fun n => !mapExist i.registry n && decide (n ≠ p.Name)) := by
          funext n
          show (!mapExist ((p.Name, p) :: i.registry) n) = _
          rw [hsup]
          by_cases hnp : p.Name = n
          · simp [hnp]
          · have : ¬ n = p.Name := fun h' => hnp h'.symm
            simp [hnp, this]
        rw [hfun]
        simp only [count, List.length_cons]
        omega

/-- C18: when every dependency of every package of a list is registered,
calling Index on the packages of the list, in any order and one call after the
other, returns OK for every call, and the registry then holds as many entries
more as the list has distinct names that were not registered before. -/
theorem indexAll_batch (i : InMemoryIndexer) (pkgs order : List Pkg)
    (hdeps : ∀ p ∈ pkgs, ∀ d ∈ p.Deps, mapExist i.registry d = true)
    (hperm : order.Perm pkgs) :
    (∀ st ∈ (indexAll i order).1, st = OK) ∧
    (indexAll i order).1.length = pkgs.length ∧
    count (indexAll i order).2 = count i +
      ((pkgs.map Pkg.Name).dedup.filter (fun n => !mapExist i.registry n)).length := by
  have hdeps' : ∀ p ∈ order, ∀ d ∈ p.Deps, mapExist i.registry d = true :=
    fun p hp => hdeps p (hperm.mem_iff.mp hp)
  obtain ⟨h1, h2, h3⟩ := indexAll_spec order i hdeps'
  refine ⟨h1, by rw [h2, hperm.length_eq], ?_⟩
  rw [h3]
  congr 1
  exact (((hperm.map Pkg.Name).dedup).filter _).length_eq

theorem indexAll_batch_witness :
    (∀ st ∈ (indexAll ⟨[("core", ⟨"core", []⟩)]⟩
        [⟨"nginx", ["core"]⟩, ⟨"mysql", ["core"]⟩, ⟨"mysql", ["core"]⟩]).1, st = OK) ∧
    (indexAll ⟨[("core", ⟨"core", []⟩)]⟩
        [⟨"nginx", ["core"]⟩, ⟨"mysql", ["core"]⟩, ⟨"mysql", ["core"]⟩]).1.length = 3 ∧
    count (indexAll ⟨[("core", ⟨"core", []⟩)]⟩
        [⟨"nginx", ["core"]⟩, ⟨"mysql", ["core"]⟩, ⟨"mysql", ["core"]⟩]).2 = 1 + 2 :=
  indexAll_batch ⟨[("core", ⟨"core", []⟩)]⟩
    [⟨"mysql", ["core"]⟩, ⟨"nginx", ["core"]⟩, ⟨"mysql", ["core"]⟩]
    [⟨"nginx", ["core"]⟩, ⟨"mysql", ["core"]⟩, ⟨"mysql", ["core"]⟩]
    (by decide) (by decide)


/-! ## The loop of a connection -/

theorem process_index_a (err : ErrChan) :
    process ⟨NewInMemoryIndexer, err⟩ "INDEX|a|\n"
      = .returns ("OK\n", ⟨⟨[("a", ⟨"a", []⟩)]⟩, err⟩) := by
  have hp : ParseMsg "INDEX|a|\n" = some ⟨some ⟨"a", []⟩, "INDEX", none⟩ := by decide
  rw [process_of_parsed hp, if_pos rfl]
  rfl

theorem process_query_a (err : ErrChan) :
    process ⟨⟨[("a", ⟨"a", []⟩)]⟩, err⟩ "QUERY|a|\n"
      = .returns ("OK\n", ⟨⟨[("a", ⟨"a", []⟩)]⟩, err⟩) := by
  have hp : ParseMsg "QUERY|a|\n" = some ⟨some ⟨"a", []⟩, "QUERY", none⟩ := by decide
  rw [process_of_parsed hp, if_neg (by decide), if_neg (by decide), if_pos rfl]
  rfl

/-- C19 does not hold of the code: when the request lines `INDEX|a|` and
`QUERY|a|` reach the server in one read, handleConn answers the first line
only, because the second line stays in the reader that `read` made for the
first call and is lost with it; when the same lines reach the server in two
reads, both are answered, in order.  Both lines parse, so this holds whatever
the error channel does with a send. -/
theorem handleConn_loses_buffered_line (err : ErrChan) :
    handleConn ⟨NewInMemoryIndexer, err⟩ ["INDEX|a|\nQUERY|a|\n"]
      = some (["OK\n"], .returns ⟨⟨[("a", ⟨"a", []⟩)]⟩, err⟩) ∧
    handleConn ⟨NewInMemoryIndexer, err⟩ ["INDEX|a|\n", "QUERY|a|\n"]
      = some (["OK\n", "OK\n"], .returns ⟨⟨[("a", ⟨"a", []⟩)]⟩, err⟩) := by
  have hr0 : read [] = (none, []) := rfl
  have hr1 : read ["INDEX|a|\nQUERY|a|\n"] = (some "INDEX|a|\n", []) := by decide
  have hr2 : read ["INDEX|a|\n", "QUERY|a|\n"] = (some "INDEX|a|\n", ["QUERY|a|\n"]) := by
    decide
  have hr3 : read ["QUERY|a|\n"] = (some "QUERY|a|\n", []) := by decide
  constructor
  · simp only [handleConn, List.length_cons, List.length_nil, Nat.zero_add, handleConnLoop,
      hr0, hr1, process_index_a]
  · simp only [handleConn, List.length_cons, List.length_nil, Nat.zero_add, handleConnLoop,
      hr0, hr2, hr3, process_index_a, process_query_a]

/-! ## The dependency graph has no cycle -/

theorem keys_mapDelete_sublist (r : Registry) (k : String) :
    ∀ d, d ∈ keys (mapDelete r k) → d ∈ keys r :=
  fun d h => ((mem_keys_mapDelete r k d).mp h).1

theorem depsLater_mapDelete {r : Registry} {name : String} (h : depsLater r)
    (hfree : ∀ e ∈ r, name ∉ e.2.Deps) : depsLater (mapDelete r name) := by
  induction r with
  | nil => simp [mapDelete, depsLater]
  | cons e rest ih =>
    obtain ⟨he, hrest⟩ := h
    have ih' : depsLater (mapDelete rest name) :=
      ih hrest (fun e' he' => hfree e' (List.mem_cons_of_mem _ he'))
    have hcons : mapDelete (e :: rest) name
        = if e.1 ≠ name then e :: mapDelete rest name else mapDelete rest name := by
      by_cases hk : e.1 = name <;> simp [mapDelete, List.filter_cons, hk]
    rw [hcons]
    by_cases hk : e.1 = name
    · rw [if_neg (by simpa using hk)]
      exact ih'
    · rw [if_pos hk]
      refine ⟨?_, ih'⟩
      intro d hd
      rw [mem_keys_mapDelete]
      refine ⟨he d hd, ?_⟩
      rintro rfl
      exact hfree e (List.mem_cons_self _ _) hd

theorem depsLater_Index (i : InMemoryIndexer) (p : Pkg) (h : depsLater i.registry) :
    depsLater (Index i p).2.registry := by
  rcases Index_cases i p with ⟨_, h2⟩ | ⟨_, hd, h3⟩ | ⟨_, _, h3⟩
  · rw [h2]; exact h
  · rw [h3]
    exact ⟨fun d hdm => (mapExist_iff_mem_keys _ _).mp (hd d hdm), h⟩
  · rw [h3]; exact h

theorem depsLater_Remove (i : InMemoryIndexer) (name : String) (h : depsLater i.registry) :
    depsLater (Remove i name).2.registry := by
  rcases Remove_cases i name with ⟨_, h2⟩ | ⟨_, hfree, h3⟩ | ⟨_, _, h3⟩
  · rw [h2]; exact h
  · rw [h3]; exact depsLater_mapDelete h hfree
  · rw [h3]; exact h

theorem depsLater_performAll (cs : List Call) (i : InMemoryIndexer)
    (h : depsLater i.registry) : depsLater (performAll i cs).registry := by
  induction cs generalizing i with
  | nil => exact h
  | cons c cs ih =>
    apply ih
    cases c with
    | index p => exact depsLater_Index i p h
    | remove name => exact depsLater_Remove i name h
    | query name => simpa [perform, Query_state] using h

theorem named_Index (i : InMemoryIndexer) (p : Pkg)
    (h : ∀ e ∈ i.registry, e.2.Name = e.1) : ∀ e ∈ (Index i p).2.registry, e.2.Name = e.1 := by
  rcases Index_cases i p with ⟨_, h2⟩ | ⟨_, _, h3⟩ | ⟨_, _, h3⟩
  · rw [h2]; exact h
  · rw [h3]
    intro e he
    rcases List.mem_cons.mp he with rfl | he'
    · rfl
    · exact h e he'
  · rw [h3]; exact h

theorem named_Remove (i : InMemoryIndexer) (name : String)
    (h : ∀ e ∈ i.registry, e.2.Name = e.1) :
    ∀ e ∈ (Remove i name).2.registry, e.2.Name = e.1 := by
  rcases Remove_cases i name with ⟨_, h2⟩ | ⟨_, _, h3⟩ | ⟨_, _, h3⟩
  · rw [h2]; exact h
  · rw [h3]
    intro e he
    exact h e (List.mem_filter.mp he).1
  · rw [h3]; exact h

theorem named_performAll (cs : List Call) (i : InMemoryIndexer)
    (h : ∀ e ∈ i.registry, e.2.Name = e.1) :
    ∀ e ∈ (performAll i cs).registry, e.2.Name = e.1 := by
  induction cs generalizing i with
  | nil => exact h
  | cons c cs ih =>
    apply ih
    cases c with
    | index p => exact named_Index i p h
    | remove name => exact named_Remove i name h
    | query name => simpa [perform, Query_state] using h

theorem depsLater_mem_keys {r : Registry} (h : depsLater r) {k d : String}
    (hdep : dependsOn r k d) : d ∈ keys r := by
  induction r with
  | nil =>
    obtain ⟨p, hp, _⟩ := hdep
    simp [mapGet] at hp
  | cons e rest ih =>
    obtain ⟨he, hrest⟩ := h
    obtain ⟨p, hp, hd⟩ := hdep
    obtain ⟨k0, v0⟩ := e
    simp only [keys, List.map_cons, List.mem_cons]
    right
    by_cases hk : k0 = k
    · simp only [mapGet, hk, if_true, Option.some.injEq] at hp
      subst hp
      exact he d hd
    · simp only [mapGet, hk, if_false] at hp
      exact ih hrest ⟨p, hp, hd⟩

/-- A dependency stands later in the scan order than the package that lists
it. -/
theorem dependsOn_indexOf_lt {r : Registry} (hwf : WF r) (h : depsLater r) {k d : String}
    (hdep : dependsOn r k d) : (keys r).indexOf k < (keys r).indexOf d := by
  induction r with
  | nil =>
    obtain ⟨p, hp, _⟩ := hdep
    simp [mapGet] at hp
  | cons e rest ih =>
    obtain ⟨he, hrest⟩ := h
    obtain ⟨p, hp, hd⟩ := hdep
    obtain ⟨k0, v0⟩ := e
    have hnd : k0 ∉ keys rest ∧ WF rest := by simpa [WF, keys] using hwf
    by_cases hk : k0 = k
    · simp only [mapGet, hk, if_true, Option.some.injEq] at hp
      subst hp
      have hdk : d ∈ keys rest := he d hd
      have hne : k0 ≠ d := fun h' => hnd.1 (h' ▸ hdk)
      simp only [keys, List.map_cons]
      rw [List.indexOf_cons_eq _ hk, List.indexOf_cons_ne _ hne]
      exact Nat.succ_pos _
    · simp only [mapGet, hk, if_false] at hp
      have hdep' : dependsOn rest k d := ⟨p, hp, hd⟩
      have hdk : d ∈ keys rest := depsLater_mem_keys hrest hdep'
      have hne : k0 ≠ d := fun h' => hnd.1 (h' ▸ hdk)
      have := ih hnd.2 hrest hdep'
      simp only [keys, List.map_cons] at this ⊢
      rw [List.indexOf_cons_ne _ hk, List.indexOf_cons_ne _ hne]
      exact Nat.succ_lt_succ this

theorem transGen_dependsOn_indexOf_lt {r : Registry} (hwf : WF r) (h : depsLater r)
    {a b : String} (hab : Relation.TransGen (dependsOn r) a b) :
    (keys r).indexOf a < (keys r).indexOf b := by
  induction hab with
  | single hstep => exact dependsOn_indexOf_lt hwf h hstep
  | tail _ hstep ih => exact Nat.lt_trans ih (dependsOn_indexOf_lt hwf h hstep)

theorem extractFields_no_panic {s : String}
    (h : 2 ≤ (strings.Split (strings.TrimSpace s) msgDelimiter).length) :
    extractFields s ≠ .indexOutOfRange := by
  unfold extractFields
  cases hsp : strings.Split (strings.TrimSpace s) msgDelimiter with
  | nil => rw [hsp] at h; simp at h
  | cons a l =>
    cases l with
    | nil => rw [hsp] at h; simp at h
    | cons b l' =>
      simp only [List.getElem?_cons_zero, List.getElem?_cons_succ]
      split_ifs <;> simp

theorem wellStructured_split_length {s : String} (h : isWellStructured s = true) :
    3 ≤ (strings.Split (strings.TrimSpace s) msgDelimiter).length := by
  obtain ⟨c, n, rest, rfl, hc, hn⟩ := wellStructured_fields h
  have hA : '|' ∉ dropLeadingSpace c.data := fun h' => hc (mem_dropLeadingSpace h')
  rw [line_data, TrimSpace_fields]
  simp only [msgDelimiter]
  rw [Split_first _ hA, Split_first _ hn]
  simp only [List.length_cons, length_Split]
  omega


theorem extractFields_value_length {s : String} {splits : List String}
    (h : extractFields s = .value splits) :
    splits = strings.Split (strings.TrimSpace s) msgDelimiter ∧ 2 ≤ splits.length := by
  unfold extractFields at h
  cases hsp : strings.Split (strings.TrimSpace s) msgDelimiter with
  | nil => rw [hsp] at h; simp at h
  | cons a l =>
    cases l with
    | nil =>
      rw [hsp] at h
      simp only [List.getElem?_cons_zero, List.getElem?_cons_succ, List.getElem?_nil] at h
      split_ifs at h
    | cons b l' =>
      rw [hsp] at h
      simp only [List.getElem?_cons_zero, List.getElem?_cons_succ] at h
      split_ifs at h
      simp only [Outcome.value.injEq] at h
      subst h
      exact ⟨rfl, by simp⟩

/-! ## The last two claims -/

/-- C21: after every finite sequence of Index, Remove and Query calls on a
fresh registry the relation "lists as a dependency" among the registered
packages has no cycle; every package is registered under its name and does
not list itself, no two registered packages list each other, and Remove of a
name returns Fail only when a package registered under another name lists
it. -/
theorem dependency_graph_acyclic (cs : List Call) :
    (∀ k, ¬ Relation.TransGen
      (dependsOn (performAll NewInMemoryIndexer cs).registry) k k) ∧
    (∀ k p, mapGet (performAll NewInMemoryIndexer cs).registry k = some p →
      p.Name = k ∧ p.Name ∉ p.Deps) ∧
    (∀ k1 k2, dependsOn (performAll NewInMemoryIndexer cs).registry k1 k2 →
      ¬ dependsOn (performAll NewInMemoryIndexer cs).registry k2 k1) ∧
    (∀ name, (Remove (performAll NewInMemoryIndexer cs) name).1 = Fail →
      ∃ k p, k ≠ name ∧
        mapGet (performAll NewInMemoryIndexer cs).registry k = some p ∧ name ∈ p.Deps) := by
  have hwf : WF (performAll NewInMemoryIndexer cs).registry :=
    performAll_WF cs NewInMemoryIndexer (by simp [WF, keys, NewInMemoryIndexer])
  have hlater : depsLater (performAll NewInMemoryIndexer cs).registry :=
    depsLater_performAll cs NewInMemoryIndexer (by simp [depsLater, NewInMemoryIndexer])
  have hnamed : ∀ e ∈ (performAll NewInMemoryIndexer cs).registry, e.2.Name = e.1 :=
    named_performAll cs NewInMemoryIndexer (by simp [NewInMemoryIndexer])
  have hacyc : ∀ k, ¬ Relation.TransGen
      (dependsOn (performAll NewInMemoryIndexer cs).registry) k k :=
    fun k h => Nat.lt_irrefl _ (transGen_dependsOn_indexOf_lt hwf hlater h)
  refine ⟨hacyc, ?_, ?_, ?_⟩
  · intro k p hp
    have hname : p.Name = k := hnamed (k, p) (mapGet_some_mem hp)
    refine ⟨hname, fun hself => ?_⟩
    rw [hname] at hself
    exact hacyc k (Relation.TransGen.single ⟨p, hp, hself⟩)
  · intro k1 k2 h12 h21
    exact hacyc k1 (Relation.TransGen.tail (Relation.TransGen.single h12) h21)
  · intro name hfail
    rcases Remove_cases (performAll NewInMemoryIndexer cs) name with
      ⟨_, h2⟩ | ⟨_, _, h3⟩ | ⟨_, ⟨⟨k, p⟩, he, hl⟩, _⟩
    · rw [h2] at hfail; exact absurd hfail OK_ne_Fail
    · rw [h3] at hfail; exact absurd hfail OK_ne_Fail
    · have hget := mapGet_of_mem_WF hwf he
      refine ⟨k, p, ?_, hget, hl⟩
      rintro rfl
      exact hacyc k (Relation.TransGen.single ⟨p, hget, hl⟩)

/-- C22: ParseMsg returns on every string and reads no element out of range.
When extractFields is reached, that is on a well structured line, the split
of the trimmed line has three elements or more and extractFields does not
panic; the list that extractFields returns has the elements 0 and 1 that
ParseMsg reads; extractDeps, which reads the element 2 only of a list of three,
never panics; and ParseMsg returns an error with no package or a package with
no error. -/
theorem ParseMsg_total (s : String) :
    (isWellStructured s = true →
      3 ≤ (strings.Split (strings.TrimSpace s) msgDelimiter).length ∧
      extractFields s ≠ .indexOutOfRange) ∧
    (∀ splits, extractFields s = .value splits →
      (∃ cmd, splits[0]? = some cmd) ∧ (∃ name, splits[1]? = some name)) ∧
    (∀ splits, ∃ deps, extractDeps splits = some deps) ∧
    (∃ r, ParseMsg s = some r ∧
      ((∃ msg, r.e = some msg ∧ r.p = none) ∨ (∃ pkg, r.p = some pkg ∧ r.e = none))) := by
  refine ⟨?_, ?_, extractDeps_isSome, ?_⟩
  · intro hw
    have hlen := wellStructured_split_length hw
    exact ⟨hlen, extractFields_no_panic (by omega)⟩
  · intro splits hv
    obtain ⟨_, hlen⟩ := extractFields_value_length hv
    cases splits with
    | nil => simp at hlen
    | cons a l =>
      cases l with
      | nil => simp at hlen
      | cons b l' => exact ⟨⟨a, rfl⟩, ⟨b, by simp⟩⟩
  · rcases ParseMsg_cases s with ⟨msg, hp, _⟩ | ⟨pkg, cmd, hp, _⟩
    · exact ⟨_, hp, Or.inl ⟨msg, rfl, rfl⟩⟩
    · exact ⟨_, hp, Or.inr ⟨pkg, rfl, rfl⟩⟩


end Indexer
